import Mathlib

/-!
Verification development for the GoBuff library: a reusable byte buffer
(`buffer.go`) and a size-class-bucketed buffer pool (`pool.go`).

The Go code is embedded shallowly:
* a Go byte slice `buf []byte` together with its capacity is modelled as a
  `List Nat` of written bytes plus an explicit `cap : Nat`; the read cursor
  `r` is a `Nat`;
* Go `int` values that are only ever non-negative on the paths under study
  are modelled as `Nat`; public parameters that Go clamps at zero are taken
  as `Int` and clamped exactly as the source does;
* fallible operations return the value paired with an `Option GoErr`, where
  `GoErr` covers the sentinel errors the code distinguishes (`io.EOF`,
  `io.ErrShortWrite`) plus an opaque "other" error from external readers
  or writers;
* each `sync.Pool` is modelled as the list of buffers it currently stores;
  `sync.Pool.Get` is nondeterministic (it may return any stored element or
  miss and construct a fresh one), so pool operations are given as a step
  relation `PStep` on pool states, with `Reachable` its reflexive-transitive
  closure from a freshly constructed pool.
-/

/-- Errors distinguished by the buffer code: `io.EOF`, `io.ErrShortWrite`,
and any other error produced by an external reader or writer. -/
inductive GoErr : Type
  | eof
  | shortWrite
  | other
  deriving DecidableEq, Repr

/-- Model of `Buffer` from `buffer.go`: `buf` is the written portion of the
backing slice (so `buf.length` is Go's `len(b.buf)`), `cap` is the slice
capacity `cap(b.buf)`, and `r` is the read cursor. -/
structure Buffer : Type where
  buf : List Nat
  cap : Nat
  r : Nat
  deriving DecidableEq, Repr

namespace Buffer

/-- `NewBuffer` from `buffer.go`: negative initial capacities are clamped
to zero; the buffer starts empty. -/
def NewBuffer (initialCap : Int) : Buffer :=
  { buf := [], cap := initialCap.toNat, r := 0 }

/-- `Bytes` returns the unread contents `b.buf[b.r:]`. -/
def Bytes (b : Buffer) : List Nat :=
  b.buf.drop b.r

/-- `Len` returns the number of unread bytes `len(b.buf) - b.r`. -/
def Len (b : Buffer) : Nat :=
  b.buf.length - b.r

/-- `Cap` returns the capacity of the backing slice. -/
def Cap (b : Buffer) : Nat :=
  b.cap

/-- `Reset` clears the buffer to empty, retaining the backing storage. -/
def Reset (b : Buffer) : Buffer :=
  { b with buf := [], r := 0 }

/-- One `n |= n >> s` step of the bit-smearing loop in `nextPowerOfTwo`. -/
def orShift (x D : Nat) : Nat :=
  x ||| (x >>> D)

/-- `nextPowerOfTwo` from `buffer.go`, the classic bit-smearing loop on a
64-bit Go `int`: `n |= n >> s` for `s = 1, 2, 4, 8, 16, 32`.  For an
argument `n ≥ 1` the smeared value `m` has every bit below the most
significant bit of `n - 1` set.  Go's final `n < 0` test asks whether bit
63 of the smeared value is set, which in the unsigned reading used here
is `2 ^ 63 ≤ m`. -/
def nextPowerOfTwo (n : Nat) : Nat :=
  if n = 0 then 0
  else
    let m := orShift (orShift (orShift (orShift (orShift
      (orShift (n - 1) 1) 2) 4) 8) 16) 32
    if 2 ^ 63 ≤ m then 0 else m + 1

/-- `grow` from `buffer.go`: collapse a fully drained buffer, take the fast
path when trailing free capacity suffices, otherwise compact consumed bytes
in place when that makes room, otherwise reallocate to the next power of
two at least `unread + n`.  Go's `cap(b.buf)-len(b.buf) >= n` is rendered
as `len + n ≤ cap` (true arithmetic; Go slices always have `len ≤ cap`). -/
def grow (b : Buffer) (n : Nat) : Buffer :=
  if n = 0 then b
  else
    let b1 := if b.buf.length ≤ b.r then b.Reset else b
    if b1.buf.length + n ≤ b1.cap then b1
    else if 0 < b1.r ∧ (b1.buf.length - b1.r) + n ≤ b1.cap then
      { b1 with buf := b1.buf.drop b1.r, r := 0 }
    else
      { buf := b1.buf.drop b1.r,
        cap := nextPowerOfTwo ((b1.buf.length - b1.r) + n),
        r := 0 }

/-- Public `Grow`: only positive `n` triggers `grow`. -/
def Grow (b : Buffer) (n : Int) : Buffer :=
  if 0 < n then b.grow n.toNat else b

/-- Go's `append` on a slice whose capacity was already ensured by `grow`:
the data is appended and the capacity is unchanged (the `max` is inert
whenever `grow` has done its job, mirroring that `append` reallocates
only when capacity is exceeded). -/
def goAppend (b : Buffer) (p : List Nat) : Buffer :=
  { b with buf := b.buf ++ p, cap := max b.cap (b.buf.length + p.length) }

/-- `Write` from `buffer.go`: appending an empty slice is a no-op; a fully
drained buffer is collapsed first; the returned count is `len(p)` and the
returned error is always `nil`, so only the count is modelled. -/
def Write (b : Buffer) (p : List Nat) : Buffer × Nat :=
  if p.length = 0 then (b, 0)
  else
    let b1 := if b.buf.length ≤ b.r then b.Reset else b
    (goAppend (b1.grow p.length) p, p.length)

/-- `WriteByte` from `buffer.go`; the returned error is always `nil`. -/
def WriteByte (b : Buffer) (v : Nat) : Buffer :=
  let b1 := if b.buf.length ≤ b.r then b.Reset else b
  goAppend (b1.grow 1) [v]

/-- `WriteString` from `buffer.go`; the string is modelled as its byte
sequence, so the body coincides with `Write`. -/
def WriteString (b : Buffer) (s : List Nat) : Buffer × Nat :=
  if s.length = 0 then (b, 0)
  else
    let b1 := if b.buf.length ≤ b.r then b.Reset else b
    (goAppend (b1.grow s.length) s, s.length)

/-- `Reserve` from `buffer.go`: grows, then extends the written length by
`n` over the (unspecified) spare-capacity region, returning a view of that
region.  The reserved bytes are modelled as zeros; only the shape of the
state matters to the properties below. -/
def Reserve (b : Buffer) (n : Int) : Buffer :=
  if n ≤ 0 then b
  else
    let b1 := b.grow n.toNat
    { b1 with buf := b1.buf ++ List.replicate n.toNat 0 }

/-- `Read` from `buffer.go`, with the destination slice represented by its
length `plen`.  Returns the new buffer, the bytes copied out (Go's return
value `n` is their count), and the error (`io.EOF` when nothing remains). -/
def Read (b : Buffer) (plen : Nat) : Buffer × List Nat × Option GoErr :=
  if plen = 0 then (b, [], none)
  else if b.buf.length ≤ b.r then (b.Reset, [], some .eof)
  else
    let chunk := (b.buf.drop b.r).take plen
    let b1 : Buffer := { b with r := b.r + chunk.length }
    if b1.buf.length ≤ b1.r then (b1.Reset, chunk, none) else (b1, chunk, none)

/-- `WriteTo` from `buffer.go`.  The external sink is represented by the
count it reports (`accepted`) and its own error (`werr`); the sink's data
handling is outside the buffer's state.  Mirrors the source: advance the
cursor by the accepted count, collapse when everything was consumed, and
report `io.ErrShortWrite` when the sink accepted fewer bytes than offered
without reporting an error of its own. -/
def WriteTo (b : Buffer) (accepted : Nat) (werr : Option GoErr) :
    Buffer × Nat × Option GoErr :=
  if b.buf.length ≤ b.r then (b.Reset, 0, none)
  else
    let plen := b.buf.length - b.r
    let b1 :=
      if 0 < accepted then
        let b2 : Buffer := { b with r := b.r + accepted }
        if b2.buf.length ≤ b2.r then b2.Reset else b2
      else b
    if werr = none ∧ accepted ≠ plen then (b1, accepted, some .shortWrite)
    else (b1, accepted, werr)

/-- The buffer update of one `ReadFrom` loop iteration: grow by
`minRead = 512` when the buffer is full (`len == cap`), then receive the
source's bytes into the spare region `b.buf[start:cap]` and re-slice to
`start + n` — the delivered `chunk` is clipped to the offered space, as
`Read(p)` returns `n ≤ len(p)`. -/
def readFromStep (b : Buffer) (chunk : List Nat) : Buffer :=
  let b1 := if b.buf.length = b.cap then b.grow 512 else b
  let w := chunk.take (b1.cap - b1.buf.length)
  if w.length ≠ 0 then { b1 with buf := b1.buf ++ w } else b1

/-- The byte count `n` received by one `ReadFrom` loop iteration. -/
def readFromGot (b : Buffer) (chunk : List Nat) : Nat :=
  let b1 := if b.buf.length = b.cap then b.grow 512 else b
  (chunk.take (b1.cap - b1.buf.length)).length

/-- One iteration trace of the `ReadFrom` loop.  The external source is a
finite list of responses; each response carries the bytes the source would
deliver and the error reported alongside.  An exhausted trace is read as
an immediate `io.EOF`, which the loop treats as success; any other error
stops the loop and propagates with the running total. -/
def readFromLoop : Buffer → Nat → List (List Nat × Option GoErr) →
    Buffer × Nat × Option GoErr
  | b, total, [] => (b, total, none)
  | b, total, (chunk, err) :: rest =>
    match err with
    | some .eof => (readFromStep b chunk, total + readFromGot b chunk, none)
    | some e => (readFromStep b chunk, total + readFromGot b chunk, some e)
    | none => readFromLoop (readFromStep b chunk) (total + readFromGot b chunk) rest

/-- `ReadFrom` from `buffer.go`: collapse a drained buffer, then run the
read loop with `minRead = 512`. -/
def ReadFrom (b : Buffer) (src : List (List Nat × Option GoErr)) :
    Buffer × Nat × Option GoErr :=
  let b1 := if b.buf.length ≤ b.r then b.Reset else b
  readFromLoop b1 0 src

end Buffer

/-! ## Pool model (`pool.go`)

Concurrency-free functional model: atomics become plain fields, and each
`sync.Pool` becomes the list of buffers it currently stores.  The
finalizer-based leak tracking and the `Metrics` callback only observe the
state (they never alter the routing, sizing or calibration data), so they
are not modelled.  Go's `float64` percentile is modelled as a rational;
the claims checked below never depend on the rounding of the single
floating-point product in `recalibratePercentile`. -/

/-- Default bucket table from `pool.go`. -/
def defaultBucketSizes : List Nat :=
  [64, 128, 256, 512, 1024, 2048, 4096, 8192, 16384, 32768, 65536]

/-- Insertion of one element into a sorted list; `sortInts` below models
Go's `sort.Ints` (ascending sort). -/
def insertSorted (x : Nat) : List Nat → List Nat
  | [] => [x]
  | y :: ys => if x ≤ y then x :: y :: ys else y :: insertSorted x ys

/-- Ascending sort, modelling `sort.Ints` in `normalizeSizes`. -/
def sortInts (l : List Nat) : List Nat :=
  l.foldr insertSorted []

/-- Adjacent deduplication pass of `normalizeSizes`: keep the head of each
run of equal values of the sorted list. -/
def dedupAdjAux (x : Nat) : List Nat → List Nat
  | [] => [x]
  | y :: ys => if x = y then dedupAdjAux x ys else x :: dedupAdjAux y ys

/-- `normalizeSizes` from `pool.go`: drop non-positive entries, sort
ascending, and remove duplicates. -/
def normalizeSizes (s : List Int) : List Nat :=
  let filtered := (s.filter (fun v => decide (0 < v))).map Int.toNat
  match sortInts filtered with
  | [] => []
  | x :: xs => dedupAdjAux x xs

/-- The search loop of `chooseCap`: first table entry at least `target`. -/
def chooseCapLoop (target : Int) : List Nat → Option Nat
  | [] => none
  | s :: ss => if target ≤ (s : Int) then some s else chooseCapLoop target ss

/-- `chooseCap` from `pool.go`: the first size class at least `target`,
the smallest class for a non-positive target, and the largest class when
`target` exceeds every class. -/
def chooseCap (sizes : List Nat) (target : Int) : Nat :=
  if target ≤ 0 then sizes.headD 0
  else
    match chooseCapLoop target sizes with
    | some s => s
    | none => sizes.getLastD 0

/-- The search loop of `bucketIndex`: index of the first class that can
hold `size`. -/
def bucketIndexLoop (size : Nat) : List Nat → Option Nat
  | [] => none
  | s :: ss =>
    if size ≤ s then some 0 else (bucketIndexLoop size ss).map (· + 1)

/-- `bucketIndex` from `pool.go`: index of the first class at least
`size`, index 0 for `size ≤ 0`, and the last index when `size` exceeds
every class. -/
def bucketIndex (sizes : List Nat) (size : Nat) : Nat :=
  if size = 0 then 0
  else
    match bucketIndexLoop size sizes with
    | some i => i
    | none => sizes.length - 1

/-- State of a `BufferPool`: configuration, counters, and the contents of
the per-class sub-pools and the small-object sub-pool. -/
structure PoolState : Type where
  sizes : List Nat
  smallLimit : Nat
  observeEvery : Nat
  percentile : ℚ
  calibrateThr : Nat
  defaultCap : Nat
  observed : Nat
  bucketHits : List Nat
  buckets : List (List Buffer)
  smallPool : List Buffer
  gets : Nat
  puts : Nat
  allocs : Nat
  calibrations : Nat
  deriving DecidableEq

/-- `PoolOptions` from `pool.go` (leak detection and the metrics callback
are observers only and are omitted from the state model). -/
structure PoolOptions : Type where
  bucketSizes : List Int
  initialCap : Int
  observeEvery : Int
  smallLimit : Int
  percentile : ℚ
  calibrateThr : Int

/-- `NewBufferPoolWithOptions` from `pool.go`: normalize the table (falling
back to the default power-of-two table), apply option defaults, seed the
default capacity from the initial-capacity hint, and start with empty
sub-pools and zeroed counters. -/
def NewBufferPoolWithOptions (opts : PoolOptions) : PoolState :=
  let sizes0 := normalizeSizes opts.bucketSizes
  let sizes := if sizes0 = [] then defaultBucketSizes else sizes0
  { sizes := sizes
    smallLimit := if 0 < opts.smallLimit then opts.smallLimit.toNat
                  else min 256 (sizes.headD 0)
    observeEvery := if 0 < opts.observeEvery then opts.observeEvery.toNat else 4096
    percentile := if 0 < opts.percentile ∧ opts.percentile ≤ 1 then opts.percentile
                  else 0.95
    calibrateThr := if 0 < opts.calibrateThr then opts.calibrateThr.toNat else 42000
    defaultCap := chooseCap sizes opts.initialCap
    observed := 0
    bucketHits := List.replicate sizes.length 0
    buckets := List.replicate sizes.length []
    smallPool := []
    gets := 0
    puts := 0
    allocs := 0
    calibrations := 0 }

/-- `NewBufferPool` delegates to `NewBufferPoolWithOptions` with only the
initial capacity set. -/
def NewBufferPool (initialCap : Int) : PoolState :=
  NewBufferPoolWithOptions
    { bucketSizes := [], initialCap := initialCap, observeEvery := 0,
      smallLimit := 0, percentile := 0, calibrateThr := 0 }

/-- Increment of one per-class hit counter (`p.bucketHits[bucketIdx].Add(1)`). -/
def incAt (l : List Nat) (i : Nat) : List Nat :=
  l.set i (l.getD i 0 + 1)

/-- The walk of `recalibratePercentile`: accumulate counts in ascending
class order and return the first class whose cumulative count reaches the
target. -/
def percentileChoose : List Nat → List Nat → Nat → Nat → Option Nat
  | c :: cs, s :: ss, target, cum =>
    if target ≤ cum + c then some s else percentileChoose cs ss target (cum + c)
  | _, _, _, _ => none

/-- `recalibratePercentile` from `pool.go`: read-and-zero every hit
counter, abort when the window's total is zero or under the threshold,
otherwise move the default capacity to the percentile class.  Go computes
`int64(float64(total) * p.percentile)`, truncation of a non-negative
product, rendered here as the floor of the rational product. -/
def recalibratePercentile (p : PoolState) : PoolState :=
  let counts := p.bucketHits
  let total := counts.sum
  let p1 := { p with bucketHits := List.replicate p.bucketHits.length 0 }
  if total = 0 ∨ total < p.calibrateThr then p1
  else
    let t0 := (⌊(total : ℚ) * p.percentile⌋).toNat
    let target := if t0 = 0 then total else t0
    match percentileChoose counts p1.sizes target 0 with
    | some sz => { p1 with defaultCap := sz, calibrations := p1.calibrations + 1 }
    | none => p1

/-- `observeSize` from `pool.go`: record a hit for the class, bump the
running sample count, and run recalibration whenever that count reaches a
multiple of the observation interval. -/
def observeSize (p : PoolState) (size : Nat) (idx : Nat) : PoolState :=
  if size = 0 ∨ p.observeEvery = 0 then p
  else
    let p1 := { p with bucketHits := incAt p.bucketHits idx,
                       observed := p.observed + 1 }
    if p1.observed % p1.observeEvery ≠ 0 then p1
    else recalibratePercentile p1

/-- `Calibrate` from `pool.go`: a no-op for non-positive sizes, otherwise
the default capacity moves to `chooseCap` of the observed size and the
calibration counter is bumped. -/
def Calibrate (p : PoolState) (observed : Int) : PoolState :=
  if observed ≤ 0 then p
  else { p with defaultCap := chooseCap p.sizes observed,
                calibrations := p.calibrations + 1 }

/-- `Put` from `pool.go`: a no-op on `nil`; otherwise bump `puts`, reset
the buffer, reclassify it by its current capacity, record a usage sample,
and store it in the small sub-pool (capacity at most the small limit) or
the matching class sub-pool. -/
def Put (p : PoolState) (ob : Option Buffer) : PoolState :=
  match ob with
  | none => p
  | some b =>
    let p1 := { p with puts := p.puts + 1 }
    let b1 := b.Reset
    if b1.cap ≤ p1.smallLimit then
      let idx := bucketIndex p1.sizes b1.cap
      let p2 := observeSize p1 b1.cap idx
      { p2 with smallPool := b1 :: p2.smallPool }
    else
      let idx := bucketIndex p1.sizes b1.cap
      let p2 := observeSize p1 b1.cap idx
      { p2 with buckets := p2.buckets.set idx (b1 :: p2.buckets.getD idx []) }

/-- The tail of `getSized` shared by both draw paths: grow the drawn
buffer when it is too small for the requested size. -/
def getSizedFinish (n : Nat) (drawn : Buffer) : Buffer :=
  if drawn.cap < n then drawn.grow (n - drawn.buf.length) else drawn

/-- One `sync.Pool` draw inside `getSized` (after the `n < 0` clamp and
the `gets` bump): `DrawB p n b p'` says the draw on pool state `p` for
requested size `n` can yield raw buffer `b` leaving pool state `p'`.  A
`sync.Pool.Get` may return any stored element or miss and call `New`
(which counts an allocation), so both are transitions. -/
inductive DrawB : PoolState → Nat → Buffer → PoolState → Prop
  | smallHit (p : PoolState) (n : Nat) (l₁ l₂ : List Buffer) (b : Buffer)
      (hn : n ≤ p.smallLimit) (hs : p.smallPool = l₁ ++ b :: l₂) :
      DrawB p n b { p with smallPool := l₁ ++ l₂ }
  | smallMiss (p : PoolState) (n : Nat) (hn : n ≤ p.smallLimit) :
      DrawB p n (Buffer.NewBuffer (p.smallLimit : Int))
        { p with allocs := p.allocs + 1 }
  | bucketHit (p : PoolState) (n : Nat) (l₁ l₂ : List Buffer) (b : Buffer)
      (hn : p.smallLimit < n)
      (hs : p.buckets.getD (bucketIndex p.sizes n) [] = l₁ ++ b :: l₂) :
      DrawB p n b
        { p with buckets := p.buckets.set (bucketIndex p.sizes n) (l₁ ++ l₂) }
  | bucketMiss (p : PoolState) (n : Nat) (hn : p.smallLimit < n) :
      DrawB p n (Buffer.NewBuffer ((p.sizes.getD (bucketIndex p.sizes n) 0 : Nat) : Int))
        { p with allocs := p.allocs + 1 }

/-- One public pool transition: `Get`/`GetSized`/`Borrow` (all of which
bump `gets`, clamp the requested size at zero, draw, and hand the finished
buffer to the caller — the checked-out buffer leaves the pool state),
`Put` of any buffer the caller holds (callers may return buffers that were
grown while checked out, or buffers the pool never produced), and
`Calibrate`. -/
inductive PStep : PoolState → PoolState → Prop
  | get (p p' : PoolState) (n : Int) (b : Buffer)
      (hd : DrawB { p with gets := p.gets + 1 } n.toNat b p') :
      PStep p p'
  | put (p : PoolState) (ob : Option Buffer) : PStep p (Put p ob)
  | calibrate (p : PoolState) (m : Int) : PStep p (Calibrate p m)

/-- Pool states reachable from a freshly constructed pool. -/
inductive Reachable (opts : PoolOptions) : PoolState → Prop
  | init : Reachable opts (NewBufferPoolWithOptions opts)
  | step {s s' : PoolState} (h : Reachable opts s) (hs : PStep s s') :
      Reachable opts s'

/-! ## Validity predicates and operation sequences -/

namespace Buffer

/-- The data-model invariant of a `Buffer` from the spec:
`0 ≤ cursor ≤ length ≤ capacity` (the lower bound is implicit in `Nat`). -/
def Valid (b : Buffer) : Prop :=
  b.r ≤ b.buf.length ∧ b.buf.length ≤ b.cap

/-- A buffer is never left in a drained-but-nonempty state: the read
cursor equals the write length only when the buffer is empty. -/
def Tidy (b : Buffer) : Prop :=
  b.r = b.buf.length → b.buf.length = 0

instance : DecidablePred Valid := fun b => by unfold Valid; infer_instance

instance : DecidablePred Tidy := fun b => by unfold Tidy; infer_instance

end Buffer

/-- One public `Buffer` operation, with its arguments (external readers,
writers and destination slices represented as in the definitions above). -/
inductive BOp : Type
  | writeOp (p : List Nat)
  | writeByteOp (v : Nat)
  | writeStringOp (s : List Nat)
  | readOp (plen : Nat)
  | writeToOp (accepted : Nat) (werr : Option GoErr)
  | readFromOp (src : List (List Nat × Option GoErr))
  | reserveOp (n : Int)
  | growOp (n : Int)
  | resetOp

/-- Execute one public operation, keeping only the buffer state. -/
def applyB (b : Buffer) : BOp → Buffer
  | .writeOp p => (b.Write p).1
  | .writeByteOp v => b.WriteByte v
  | .writeStringOp s => (b.WriteString s).1
  | .readOp plen => (b.Read plen).1
  | .writeToOp accepted werr => (b.WriteTo accepted werr).1
  | .readFromOp src => (b.ReadFrom src).1
  | .reserveOp n => b.Reserve n
  | .growOp n => b.Grow n
  | .resetOp => b.Reset

/-- Machine-size side condition for one operation: the amount of data the
operation may require the buffer to hold stays far inside the positive
range of a 64-bit Go `int`, so that `nextPowerOfTwo` is exact.  (At larger
sizes the Go program would fail earlier: a 64-bit allocation of that
magnitude panics.) -/
def sizeOK (b : Buffer) : BOp → Bool
  | .writeOp p => decide (b.buf.length + p.length ≤ 2 ^ 62)
  | .writeByteOp _ => decide (b.buf.length + 1 ≤ 2 ^ 62)
  | .writeStringOp s => decide (b.buf.length + s.length ≤ 2 ^ 62)
  | .readOp _ => true
  | .writeToOp _ _ => true
  | .readFromOp src =>
    decide (b.buf.length + (src.map fun c => c.1.length).sum + 512 ≤ 2 ^ 62)
  | .reserveOp n => decide (b.buf.length + n.toNat ≤ 2 ^ 62)
  | .growOp n => decide (b.buf.length + n.toNat ≤ 2 ^ 62)
  | .resetOp => true

/-- Execute a sequence of public operations. -/
def applySeq (b : Buffer) : List BOp → Buffer
  | [] => b
  | op :: ops => applySeq (applyB b op) ops

/-- The side condition of `sizeOK`, threaded through a whole sequence. -/
def seqSizesOK (b : Buffer) : List BOp → Bool
  | [] => true
  | op :: ops => sizeOK b op && seqSizesOK (applyB b op) ops

/-- One append-side call for the round-trip property: `Write`,
`WriteByte` or `WriteString`. -/
inductive WOp : Type
  | wr (p : List Nat)
  | wb (v : Nat)
  | ws (s : List Nat)

/-- The bytes a write-side call appends. -/
def wopData : WOp → List Nat
  | .wr p => p
  | .wb v => [v]
  | .ws s => s

/-- Execute one write-side call. -/
def applyWOp (b : Buffer) : WOp → Buffer
  | .wr p => (b.Write p).1
  | .wb v => b.WriteByte v
  | .ws s => (b.WriteString s).1

/-- Execute a sequence of write-side calls. -/
def writeAll (b : Buffer) : List WOp → Buffer
  | [] => b
  | op :: ops => writeAll (applyWOp b op) ops

/-- Execute a sequence of `Read` calls with the given destination-slice
lengths, collecting the chunk each call copies out (whose length is the
count the call returns). -/
def readAll (b : Buffer) : List Nat → Buffer × List (List Nat)
  | [] => (b, [])
  | plen :: rest =>
    let step := b.Read plen
    let rec0 := readAll step.1 rest
    (rec0.1, step.2.1 :: rec0.2)

/-- Pool-state invariant established for all reachable states: the bucket
list matches the size table; every stored buffer was reset by `Put`; and
every buffer stored in a non-final class sub-pool fits its class bound. -/
def PoolInv (p : PoolState) : Prop :=
  p.sizes ≠ [] ∧
  p.buckets.length = p.sizes.length ∧
  (∀ i, i + 1 < p.sizes.length →
    ∀ b ∈ p.buckets.getD i [], b.cap ≤ p.sizes.getD i 0) ∧
  (∀ b ∈ p.smallPool, b.buf = [] ∧ b.r = 0) ∧
  (∀ i, ∀ b ∈ p.buckets.getD i [], b.buf = [] ∧ b.r = 0)

/-- A two-class pool configuration used for concrete executions. -/
def optsTwo : PoolOptions :=
  { bucketSizes := [16, 32], initialCap := 0, observeEvery := 0,
    smallLimit := 0, percentile := 0, calibrateThr := 0 }

/-- The three-class table `{16, 32, 64}` of the spec's calibration
example. -/
def optsThree : PoolOptions :=
  { bucketSizes := [16, 32, 64], initialCap := 0, observeEvery := 0,
    smallLimit := 0, percentile := 0, calibrateThr := 0 }

/-- The returned buffer of the over-large request `GetSized(33)` on the
two-class pool: the last class's fresh 32-byte buffer grown to 64. -/
def grownBuf : Buffer :=
  getSizedFinish 33 (Buffer.NewBuffer 32)

/-! ## Bit-smearing lemmas for `nextPowerOfTwo` -/

namespace Buffer

theorem orShift_testBit (x D i : Nat) :
    (orShift x D).testBit i = (x.testBit i || x.testBit (i + D)) := by
  simp [orShift, Nat.testBit_or, Nat.testBit_shiftRight, Nat.add_comm]

theorem orShift_spec {m D : Nat} {x : Nat}
    (h : ∀ i, x.testBit i = true ↔ ∃ d, d < D ∧ m.testBit (i + d) = true) :
    ∀ i, (orShift x D).testBit i = true ↔
      ∃ d, d < 2 * D ∧ m.testBit (i + d) = true := by
  intro i
  rw [orShift_testBit, Bool.or_eq_true, h i, h (i + D)]
  constructor
  · rintro (⟨d, hd, hm⟩ | ⟨d, hd, hm⟩)
    · exact ⟨d, by omega, hm⟩
    · exact ⟨D + d, by omega, by rwa [← Nat.add_assoc]⟩
  · rintro ⟨d, hd, hm⟩
    by_cases hdD : d < D
    · exact Or.inl ⟨d, hdD, hm⟩
    · refine Or.inr ⟨d - D, by omega, ?_⟩
      rw [Nat.add_assoc, Nat.add_sub_cancel' (by omega)]
      exact hm

theorem smear_testBit (m : Nat) (i : Nat) :
    (orShift (orShift (orShift (orShift (orShift
      (orShift m 1) 2) 4) 8) 16) 32).testBit i = true
      ↔ ∃ d, d < 64 ∧ m.testBit (i + d) = true := by
  have h0 : ∀ i, m.testBit i = true ↔ ∃ d, d < 1 ∧ m.testBit (i + d) = true := by
    intro j
    constructor
    · intro hj
      exact ⟨0, Nat.zero_lt_one, by simpa using hj⟩
    · rintro ⟨d, hd, hm⟩
      have hd0 : d = 0 := by omega
      simpa [hd0] using hm
  have h1 := orShift_spec h0
  have h2 := orShift_spec h1
  have h3 := orShift_spec h2
  have h4 := orShift_spec h3
  have h5 := orShift_spec h4
  have h6 := orShift_spec h5
  exact h6 i

theorem smear_eq {m : Nat} (h0 : m ≠ 0) (hlt : m < 2 ^ 63) :
    orShift (orShift (orShift (orShift (orShift (orShift m 1) 2) 4) 8) 16) 32
      = 2 ^ (m.log2 + 1) - 1 := by
  have hmsb : m.testBit m.log2 = true := by
    have h1 : 2 ^ m.log2 ≤ m := Nat.log2_self_le h0
    have h2 : m < 2 ^ (m.log2 + 1) := Nat.lt_log2_self
    have hdiv : m / 2 ^ m.log2 = 1 := by
      apply Nat.div_eq_of_lt_le
      · simpa using h1
      · have hh : (1 + 1) * 2 ^ m.log2 = 2 ^ (m.log2 + 1) := by ring
        omega
    rw [Nat.testBit_to_div_mod, hdiv]
    decide
  have hL : m.log2 < 63 := by
    rw [Nat.log2_lt h0]
    exact hlt
  apply Nat.eq_of_testBit_eq
  intro i
  rw [Nat.testBit_two_pow_sub_one]
  by_cases hi : i < m.log2 + 1
  · rw [decide_eq_true hi, smear_testBit]
    exact ⟨m.log2 - i, by omega, by rw [Nat.add_sub_cancel' (by omega)]; exact hmsb⟩
  · rw [decide_eq_false hi]
    by_contra hcon
    rw [Bool.not_eq_false, smear_testBit] at hcon
    obtain ⟨d, hd, hm⟩ := hcon
    have hlt2 : m < 2 ^ (i + d) := by
      calc m < 2 ^ (m.log2 + 1) := Nat.lt_log2_self
      _ ≤ 2 ^ (i + d) := Nat.pow_le_pow_right (by omega) (by omega)
    rw [Nat.testBit_lt_two_pow hlt2] at hm
    exact absurd hm (by simp)

theorem nextPowerOfTwo_eq {n : Nat} (h1 : 2 ≤ n) (h2 : n ≤ 2 ^ 63) :
    nextPowerOfTwo n = 2 ^ ((n - 1).log2 + 1) := by
  have hm0 : n - 1 ≠ 0 := by omega
  have hmlt : n - 1 < 2 ^ 63 := by omega
  have hsm := smear_eq hm0 hmlt
  have hL : (n - 1).log2 < 63 := by
    rw [Nat.log2_lt hm0]
    exact hmlt
  have hpow : 2 ^ ((n - 1).log2 + 1) ≤ 2 ^ 63 :=
    Nat.pow_le_pow_right (by omega) (by omega)
  unfold nextPowerOfTwo
  rw [if_neg (by omega)]
  simp only [hsm]
  rw [if_neg (by omega)]
  have hone : 1 ≤ 2 ^ ((n - 1).log2 + 1) := Nat.one_le_two_pow
  omega

theorem nextPowerOfTwo_ge {n : Nat} (h1 : 1 ≤ n) (h2 : n ≤ 2 ^ 63) :
    n ≤ nextPowerOfTwo n := by
  rcases Nat.lt_or_ge n 2 with h | h
  · have hn1 : n = 1 := by omega
    subst hn1
    decide
  · rw [nextPowerOfTwo_eq h h2]
    have := @Nat.lt_log2_self (n - 1)
    omega

theorem nextPowerOfTwo_isPow {n : Nat} (h1 : 1 ≤ n) (h2 : n ≤ 2 ^ 63) :
    ∃ k, nextPowerOfTwo n = 2 ^ k := by
  rcases Nat.lt_or_ge n 2 with h | h
  · have hn1 : n = 1 := by omega
    subst hn1
    exact ⟨0, by decide⟩
  · exact ⟨(n - 1).log2 + 1, nextPowerOfTwo_eq h h2⟩

theorem nextPowerOfTwo_least {n : Nat} (h1 : 1 ≤ n) (h2 : n ≤ 2 ^ 63)
    (k : Nat) (hk : n ≤ 2 ^ k) : nextPowerOfTwo n ≤ 2 ^ k := by
  rcases Nat.lt_or_ge n 2 with h | h
  · have hn1 : n = 1 := by omega
    subst hn1
    have hone : 1 ≤ 2 ^ k := Nat.one_le_two_pow
    simpa [show nextPowerOfTwo 1 = 1 by decide] using hone
  · rw [nextPowerOfTwo_eq h h2]
    have hm0 : n - 1 ≠ 0 := by omega
    have hlog : (n - 1).log2 < k := by
      rw [Nat.log2_lt hm0]
      omega
    exact Nat.pow_le_pow_right (by omega) (by omega)

end Buffer

namespace Buffer

theorem Reset_eq_self {b : Buffer} (h1 : b.buf = []) (h2 : b.r = 0) : b.Reset = b := by
  cases b
  simp_all [Reset]

theorem grow_zero (b : Buffer) : b.grow 0 = b := by
  simp [grow]

theorem grow_eq_of_fast {b : Buffer} {n : Nat} (hn : n ≠ 0)
    (hnd : b.r < b.buf.length) (hf : b.buf.length + n ≤ b.cap) :
    b.grow n = b := by
  simp [grow, hn, Nat.not_le.mpr hnd, hf]

theorem grow_eq_of_compact {b : Buffer} {n : Nat} (hn : n ≠ 0)
    (hnd : b.r < b.buf.length) (hf : ¬ b.buf.length + n ≤ b.cap)
    (hr : 0 < b.r) (hc : (b.buf.length - b.r) + n ≤ b.cap) :
    b.grow n = { b with buf := b.buf.drop b.r, r := 0 } := by
  simp [grow, hn, Nat.not_le.mpr hnd, hf, hr, hc]

theorem grow_eq_of_realloc {b : Buffer} {n : Nat} (hn : n ≠ 0)
    (hnd : b.r < b.buf.length) (hf : ¬ b.buf.length + n ≤ b.cap)
    (hnc : ¬ (0 < b.r ∧ (b.buf.length - b.r) + n ≤ b.cap)) :
    b.grow n = { buf := b.buf.drop b.r,
                 cap := nextPowerOfTwo ((b.buf.length - b.r) + n), r := 0 } := by
  simp only [grow, if_neg hn, if_neg (Nat.not_le.mpr hnd)]
  rw [if_neg hf, if_neg hnc]

theorem grow_eq_drained {b : Buffer} {n : Nat} (hd : b.buf.length ≤ b.r) :
    b.grow n = if n = 0 then b
      else if n ≤ b.cap then b.Reset
      else { buf := [], cap := nextPowerOfTwo n, r := 0 } := by
  by_cases hn : n = 0
  · simp [grow, hn]
  · simp only [grow, if_neg hn, if_pos hd, Reset]
    by_cases hc : n ≤ b.cap
    · simp [hc]
    · simp [hc]


theorem grow_bytes {b : Buffer} (n : Nat) :
    (b.grow n).Bytes = b.Bytes := by
  by_cases hn : n = 0
  · rw [hn, grow_zero]
  by_cases hd : b.buf.length ≤ b.r
  · have hB : b.Bytes = [] := by
      simp [Bytes, List.drop_eq_nil_of_le hd]
    rw [grow_eq_drained hd, if_neg hn]
    by_cases hc : n ≤ b.cap
    · simp [hc, Reset, Bytes, hB, hd]
    · simp [hc, Bytes, hB, hd]
  push_neg at hd
  by_cases hf : b.buf.length + n ≤ b.cap
  · rw [grow_eq_of_fast hn hd hf]
  by_cases hcc : 0 < b.r ∧ (b.buf.length - b.r) + n ≤ b.cap
  · rw [grow_eq_of_compact hn hd hf hcc.1 hcc.2]
    simp [Bytes]
  · rw [grow_eq_of_realloc hn hd hf hcc]
    simp [Bytes]

theorem grow_valid {b : Buffer} {n : Nat} (hv : Valid b)
    (hbound : b.Len + n ≤ 2 ^ 62) : Valid (b.grow n) := by
  obtain ⟨hrl, hlc⟩ := hv
  have hb63 : 2 ^ 62 ≤ 2 ^ 63 := by norm_num
  by_cases hn : n = 0
  · rw [hn, grow_zero]
    exact ⟨hrl, hlc⟩
  by_cases hd : b.buf.length ≤ b.r
  · rw [grow_eq_drained hd, if_neg hn]
    by_cases hc : n ≤ b.cap
    · simp [hc, Reset, Valid]
    · simp [hc, Valid]
  push_neg at hd
  by_cases hf : b.buf.length + n ≤ b.cap
  · rw [grow_eq_of_fast hn hd hf]
    exact ⟨hrl, hlc⟩
  by_cases hcc : 0 < b.r ∧ (b.buf.length - b.r) + n ≤ b.cap
  · rw [grow_eq_of_compact hn hd hf hcc.1 hcc.2]
    constructor
    · simp
    · simp only [List.length_drop]
      omega
  · rw [grow_eq_of_realloc hn hd hf hcc]
    have hLen : b.Len = b.buf.length - b.r := rfl
    have hge : (b.buf.length - b.r) + n ≤ nextPowerOfTwo ((b.buf.length - b.r) + n) :=
      nextPowerOfTwo_ge (by omega) (by unfold Len at hbound; omega)
    constructor
    · simp
    · simp only [List.length_drop]
      omega

theorem grow_free {b : Buffer} {n : Nat} (hv : Valid b) (hn : 0 < n)
    (hbound : b.Len + n ≤ 2 ^ 62) :
    (b.grow n).buf.length + n ≤ (b.grow n).cap := by
  obtain ⟨hrl, hlc⟩ := hv
  have hn0 : n ≠ 0 := by omega
  by_cases hd : b.buf.length ≤ b.r
  · have hLen0 : b.Len = 0 := by
      unfold Len
      omega
    rw [grow_eq_drained hd, if_neg hn0]
    by_cases hc : n ≤ b.cap
    · simp [hc, Reset]
    · have hge : n ≤ nextPowerOfTwo n :=
        nextPowerOfTwo_ge (by omega) (by unfold Len at hbound; omega)
      simp only [if_neg hc]
      simpa using hge
  push_neg at hd
  by_cases hf : b.buf.length + n ≤ b.cap
  · rw [grow_eq_of_fast hn0 hd hf]
    exact hf
  by_cases hcc : 0 < b.r ∧ (b.buf.length - b.r) + n ≤ b.cap
  · rw [grow_eq_of_compact hn0 hd hf hcc.1 hcc.2]
    have := hcc.2
    simp only [List.length_drop]
    omega
  · rw [grow_eq_of_realloc hn0 hd hf hcc]
    have hge : (b.buf.length - b.r) + n ≤ nextPowerOfTwo ((b.buf.length - b.r) + n) :=
      nextPowerOfTwo_ge (by omega) (by unfold Len at hbound; omega)
    simp only [List.length_drop]
    omega

theorem grow_tidy {b : Buffer} {n : Nat} (hv : Valid b) (ht : Tidy b) :
    Tidy (b.grow n) := by
  obtain ⟨hrl, hlc⟩ := hv
  by_cases hn : n = 0
  · rw [hn, grow_zero]
    exact ht
  by_cases hd : b.buf.length ≤ b.r
  · rw [grow_eq_drained hd, if_neg hn]
    by_cases hc : n ≤ b.cap
    · simp [hc, Reset, Tidy]
    · simp [hc, Tidy]
  push_neg at hd
  by_cases hf : b.buf.length + n ≤ b.cap
  · rw [grow_eq_of_fast hn hd hf]
    exact ht
  by_cases hcc : 0 < b.r ∧ (b.buf.length - b.r) + n ≤ b.cap
  · rw [grow_eq_of_compact hn hd hf hcc.1 hcc.2]
    intro h
    simp only [List.length_drop] at h ⊢
    omega
  · rw [grow_eq_of_realloc hn hd hf hcc]
    intro h
    simp only [List.length_drop] at h ⊢
    omega

theorem grow_r_zero {b : Buffer} (n : Nat) (hr : b.r = 0) :
    (b.grow n).buf = b.buf ∧ (b.grow n).r = 0 := by
  by_cases hn : n = 0
  · rw [hn, grow_zero]
    exact ⟨rfl, hr⟩
  by_cases hd : b.buf.length ≤ b.r
  · have hbuf : b.buf = [] := by
      rw [← List.length_eq_zero]
      omega
    rw [grow_eq_drained hd, if_neg hn]
    by_cases hc : n ≤ b.cap
    · simp [hc, Reset, hbuf]
    · simp [hc, hbuf]
  push_neg at hd
  by_cases hf : b.buf.length + n ≤ b.cap
  · rw [grow_eq_of_fast hn hd hf]
    exact ⟨rfl, hr⟩
  by_cases hcc : 0 < b.r ∧ (b.buf.length - b.r) + n ≤ b.cap
  · exact absurd hcc.1 (by omega)
  · rw [grow_eq_of_realloc hn hd hf hcc]
    simp [hr]

end Buffer

/-! ## Round-trip lemmas -/

theorem applyWOp_r_zero {b : Buffer} (op : WOp) (hr : b.r = 0) :
    (applyWOp b op).buf = b.buf ++ wopData op ∧ (applyWOp b op).r = 0 := by
  have hgen : ∀ (p : List Nat), p.length ≠ 0 →
      ((Buffer.goAppend ((if b.buf.length ≤ b.r then b.Reset else b).grow p.length) p).buf
          = b.buf ++ p ∧
        (Buffer.goAppend ((if b.buf.length ≤ b.r then b.Reset else b).grow p.length) p).r = 0) := by
    intro p hp
    by_cases hl : b.buf.length ≤ b.r
    · have hbuf : b.buf = [] := by
        rw [← List.length_eq_zero]
        omega
      have h1 := Buffer.grow_r_zero (b := b.Reset) p.length rfl
      rw [if_pos hl]
      refine ⟨?_, ?_⟩
      · simp only [Buffer.goAppend]
        rw [h1.1]
        simp [Buffer.Reset, hbuf]
      · simp only [Buffer.goAppend, h1.2]
    · have h1 := Buffer.grow_r_zero (b := b) p.length hr
      rw [if_neg hl]
      exact ⟨by simp only [Buffer.goAppend, h1.1], by simp only [Buffer.goAppend, h1.2]⟩
  cases op with
  | wr p =>
    by_cases hp : p.length = 0
    · have hpn : p = [] := List.length_eq_zero.mp hp
      simp [applyWOp, Buffer.Write, hp, hpn, hr, wopData]
    · simpa [applyWOp, Buffer.Write, hp, wopData] using hgen p hp
  | wb v =>
    simpa [applyWOp, Buffer.WriteByte, wopData] using hgen [v] (by simp)
  | ws s =>
    by_cases hp : s.length = 0
    · have hpn : s = [] := List.length_eq_zero.mp hp
      simp [applyWOp, Buffer.WriteString, hp, hpn, hr, wopData]
    · simpa [applyWOp, Buffer.WriteString, hp, wopData] using hgen s hp

theorem writeAll_spec (ops : List WOp) : ∀ b : Buffer, b.r = 0 →
    (writeAll b ops).buf = b.buf ++ (ops.map wopData).flatten ∧
      (writeAll b ops).r = 0 := by
  induction ops with
  | nil => intro b hr; simp [writeAll, hr]
  | cons op ops ih =>
    intro b hr
    have h1 := applyWOp_r_zero op hr
    have h2 := ih (applyWOp b op) h1.2
    refine ⟨?_, h2.2⟩
    rw [show writeAll b (op :: ops) = writeAll (applyWOp b op) ops from rfl,
      h2.1, h1.1]
    simp [List.append_assoc]

theorem Read_bytes (b : Buffer) (plen : Nat) :
    (b.Read plen).2.1 = (b.buf.drop b.r).take plen ∧
      ((b.Read plen).1).buf.drop ((b.Read plen).1).r = (b.buf.drop b.r).drop plen := by
  by_cases hp : plen = 0
  · simp [Buffer.Read, hp]
  rw [show b.Read plen = if plen = 0 then (b, [], none)
      else if b.buf.length ≤ b.r then (b.Reset, [], some .eof)
      else
        let chunk := (b.buf.drop b.r).take plen
        let b1 : Buffer := { b with r := b.r + chunk.length }
        if b1.buf.length ≤ b1.r then (b1.Reset, chunk, none) else (b1, chunk, none)
    from rfl]
  rw [if_neg hp]
  by_cases hd : b.buf.length ≤ b.r
  · have hnil : b.buf.drop b.r = [] := List.drop_eq_nil_of_le hd
    simp [hd, Buffer.Reset, hnil]
  · push_neg at hd
    rw [if_neg (by omega)]
    have hclen : ((b.buf.drop b.r).take plen).length
        = min plen (b.buf.length - b.r) := by
      simp [List.length_take]
    by_cases hend : b.buf.length ≤ b.r + ((b.buf.drop b.r).take plen).length
    · have hple : b.buf.length - b.r ≤ plen := by omega
      have hdrop : (b.buf.drop b.r).drop plen = [] := by
        apply List.drop_eq_nil_of_le
        simp [List.length_drop]
        omega
      simp only []
      rw [if_pos hend]
      simp [Buffer.Reset, hdrop]
    · have hlt : plen < b.buf.length - b.r := by omega
      have hmin : min plen (b.buf.length - b.r) = plen := by omega
      simp only []
      rw [if_neg hend]
      refine ⟨rfl, ?_⟩
      simp only [List.drop_drop]
      rw [hclen, hmin]

theorem readAll_spec (ns : List Nat) : ∀ b : Buffer,
    ((readAll b ns).2).flatten = (b.buf.drop b.r).take ns.sum := by
  induction ns with
  | nil => intro b; simp [readAll]
  | cons plen rest ih =>
    intro b
    have h1 := Read_bytes b plen
    have h2 := ih (b.Read plen).1
    rw [show readAll b (plen :: rest)
        = ((readAll (b.Read plen).1 rest).1,
           (b.Read plen).2.1 :: (readAll (b.Read plen).1 rest).2) from rfl]
    simp only [List.flatten_cons, h2, h1.1, h1.2, List.sum_cons]
    rw [List.take_add]

/-- C2: Round-trip — starting from an empty buffer, for every sequence of
Write/WriteByte/WriteString calls appending a total of B bytes, a
subsequent sequence of Read calls whose destination lengths total at least
B returns exactly those B bytes in the order written, and the byte counts
returned by the reads sum to B. -/
theorem write_read_roundtrip (c : Int) (ops : List WOp) (ns : List Nat)
    (h : ((ops.map wopData).flatten).length ≤ ns.sum) :
    ((readAll (writeAll (Buffer.NewBuffer c) ops) ns).2).flatten
        = (ops.map wopData).flatten ∧
      (((readAll (writeAll (Buffer.NewBuffer c) ops) ns).2).map List.length).sum
        = ((ops.map wopData).flatten).length := by
  have hw := writeAll_spec ops (Buffer.NewBuffer c) rfl
  have hbuf : (writeAll (Buffer.NewBuffer c) ops).buf = (ops.map wopData).flatten := by
    rw [hw.1]
    simp [Buffer.NewBuffer]
  have hr := readAll_spec ns (writeAll (Buffer.NewBuffer c) ops)
  rw [hbuf, hw.2, List.drop_zero] at hr
  have hflat : ((readAll (writeAll (Buffer.NewBuffer c) ops) ns).2).flatten
      = (ops.map wopData).flatten := by
    rw [hr]
    exact List.take_of_length_le h
  refine ⟨hflat, ?_⟩
  rw [← List.length_flatten, hflat]

/-- Witness for the round-trip theorem at a concrete run: write [1,2],
write byte 7, write string [9,8], then read with destinations of sizes 2
and 8. -/
theorem write_read_roundtrip_witness :
    ((readAll (writeAll (Buffer.NewBuffer 4)
        [WOp.wr [1, 2], WOp.wb 7, WOp.ws [9, 8]]) [2, 8]).2).flatten
        = (([WOp.wr [1, 2], WOp.wb 7, WOp.ws [9, 8]].map wopData).flatten) ∧
      ((((readAll (writeAll (Buffer.NewBuffer 4)
        [WOp.wr [1, 2], WOp.wb 7, WOp.ws [9, 8]]) [2, 8]).2).map List.length).sum
        = (([WOp.wr [1, 2], WOp.wb 7, WOp.ws [9, 8]].map wopData).flatten).length) :=
  write_read_roundtrip 4 [WOp.wr [1, 2], WOp.wb 7, WOp.ws [9, 8]] [2, 8] (by decide)

/-- C3: In-place compaction — on a valid buffer with a consumed prefix,
a Write whose data fits together with the unread suffix inside the current
capacity leaves the capacity unchanged (no reallocation) and the unread
contents become the previous unread suffix followed by the new data. -/
theorem write_compacts_in_place (b : Buffer) (p : List Nat)
    (hv : b.Valid) (hr : 0 < b.r) (hfit : b.Len + p.length ≤ b.cap) :
    ((b.Write p).1).Cap = b.Cap ∧ ((b.Write p).1).Bytes = b.Bytes ++ p := by
  obtain ⟨hrl, hlc⟩ := hv
  have hLen : b.Len = b.buf.length - b.r := rfl
  by_cases hp : p.length = 0
  · have hpn : p = [] := List.length_eq_zero.mp hp
    simp [Buffer.Write, hp, hpn]
  rw [show b.Write p = if p.length = 0 then (b, 0)
      else (Buffer.goAppend ((if b.buf.length ≤ b.r then b.Reset else b).grow p.length) p,
        p.length) from rfl, if_neg hp]
  by_cases hd : b.buf.length ≤ b.r
  · have hr0 : b.r = b.buf.length := by omega
    have hL0 : b.Len = 0 := by rw [hLen]; omega
    have hBnil : b.Bytes = [] := List.drop_eq_nil_of_le hd
    rw [if_pos hd]
    have hgrow : (b.Reset).grow p.length = b.Reset := by
      rw [Buffer.grow_eq_drained (by simp [Buffer.Reset])]
      rw [if_neg hp, if_pos (by simp [Buffer.Reset]; omega)]
      rfl
    rw [hgrow]
    constructor
    · simp only [Buffer.goAppend, Buffer.Cap, Buffer.Reset]
      simp
      omega
    · simp [Buffer.goAppend, Buffer.Bytes, Buffer.Reset, hBnil, hd]
  · push_neg at hd
    rw [if_neg (by omega)]
    by_cases hf : b.buf.length + p.length ≤ b.cap
    · rw [Buffer.grow_eq_of_fast hp hd hf]
      constructor
      · simp only [Buffer.goAppend, Buffer.Cap]
        omega
      · simp only [Buffer.goAppend, Buffer.Bytes]
        exact List.drop_append_of_le_length (by omega)
    · rw [Buffer.grow_eq_of_compact hp hd hf hr (by rw [hLen] at hfit; omega)]
      constructor
      · simp only [Buffer.goAppend, Buffer.Cap]
        simp only [List.length_drop]
        rw [hLen] at hfit
        omega
      · simp [Buffer.goAppend, Buffer.Bytes]

/-- Witness for the compaction theorem on the spec's example: capacity 8,
write the eight bytes "abcdefgh", read 3, then write "XYZ": capacity stays
8 and the contents are "defghXYZ". -/
theorem write_compacts_in_place_witness :
    (((((Buffer.NewBuffer 8).Write
        [97, 98, 99, 100, 101, 102, 103, 104]).1.Read 3).1.Write
        [88, 89, 90]).1).Cap
      = ((((Buffer.NewBuffer 8).Write
        [97, 98, 99, 100, 101, 102, 103, 104]).1.Read 3).1).Cap ∧
    (((((Buffer.NewBuffer 8).Write
        [97, 98, 99, 100, 101, 102, 103, 104]).1.Read 3).1.Write
        [88, 89, 90]).1).Bytes
      = ((((Buffer.NewBuffer 8).Write
        [97, 98, 99, 100, 101, 102, 103, 104]).1.Read 3).1).Bytes
        ++ [88, 89, 90] :=
  write_compacts_in_place
    ((((Buffer.NewBuffer 8).Write [97, 98, 99, 100, 101, 102, 103, 104]).1.Read 3).1)
    [88, 89, 90] (by decide) (by decide) (by decide)

/-- C4: Power-of-two reallocation — when a valid buffer needs `n > 0`
additional writable bytes and neither trailing free capacity nor in-place
compaction can provide them (the unread bytes plus `n` exceed the current
capacity), `grow` adopts fresh backing storage holding exactly the
previous unread bytes with the read cursor reset to zero, whose capacity
is the least power of two at least `unread + n` (stated within the range
where a 64-bit allocation can succeed). -/
theorem grow_realloc_pow2 (b : Buffer) (n : Nat) (hv : b.Valid) (hn : 0 < n)
    (hneed : b.cap < b.Len + n) (hbound : b.Len + n ≤ 2 ^ 62) :
    (b.grow n).r = 0 ∧ (b.grow n).buf = b.Bytes ∧
      (∃ k, (b.grow n).cap = 2 ^ k) ∧ b.Len + n ≤ (b.grow n).cap ∧
      (∀ k, b.Len + n ≤ 2 ^ k → (b.grow n).cap ≤ 2 ^ k) := by
  obtain ⟨hrl, hlc⟩ := hv
  have hLen : b.Len = b.buf.length - b.r := rfl
  have hn0 : n ≠ 0 := by omega
  have h63 : b.Len + n ≤ 2 ^ 63 := le_trans hbound (by norm_num)
  by_cases hd : b.buf.length ≤ b.r
  · have hL0 : b.Len = 0 := by rw [hLen]; omega
    have hBnil : b.Bytes = [] := List.drop_eq_nil_of_le hd
    rw [hL0] at hneed hbound h63 ⊢
    rw [Buffer.grow_eq_drained hd, if_neg hn0, if_neg (by omega)]
    refine ⟨rfl, hBnil.symm, ?_, ?_, ?_⟩
    · exact Buffer.nextPowerOfTwo_isPow (by omega) (by omega)
    · simpa using Buffer.nextPowerOfTwo_ge (by omega) (by omega)
    · intro k hk
      simpa using Buffer.nextPowerOfTwo_least (by omega) (by omega) k (by omega)
  · push_neg at hd
    have hreq : (b.buf.length - b.r) + n = b.Len + n := by rw [hLen]
    rw [Buffer.grow_eq_of_realloc hn0 hd (by rw [hLen] at hneed; omega)
      (by rw [hLen] at hneed; omega)]
    refine ⟨rfl, rfl, ?_, ?_, ?_⟩
    · rw [hreq]
      exact Buffer.nextPowerOfTwo_isPow (by omega) h63
    · rw [hreq]
      exact Buffer.nextPowerOfTwo_ge (by omega) h63
    · intro k hk
      rw [hreq]
      exact Buffer.nextPowerOfTwo_least (by omega) h63 k hk

/-- Witness for the reallocation theorem: the buffer holding bytes
[0,1,2,3] with capacity 4 and cursor 1 (unread [1,2,3]), grown by 4,
reallocates to capacity 8 = 2^3 holding [1,2,3]. -/
theorem grow_realloc_pow2_witness :
    ((Buffer.mk [0, 1, 2, 3] 4 1).grow 4).r = 0 ∧
      ((Buffer.mk [0, 1, 2, 3] 4 1).grow 4).buf
        = (Buffer.mk [0, 1, 2, 3] 4 1).Bytes ∧
      (∃ k, ((Buffer.mk [0, 1, 2, 3] 4 1).grow 4).cap = 2 ^ k) ∧
      (Buffer.mk [0, 1, 2, 3] 4 1).Len + 4
        ≤ ((Buffer.mk [0, 1, 2, 3] 4 1).grow 4).cap ∧
      (∀ k, (Buffer.mk [0, 1, 2, 3] 4 1).Len + 4 ≤ 2 ^ k →
        ((Buffer.mk [0, 1, 2, 3] 4 1).grow 4).cap ≤ 2 ^ k) :=
  grow_realloc_pow2 (Buffer.mk [0, 1, 2, 3] 4 1) 4 (by decide) (by decide)
    (by decide) (by decide)

/-- C6: Short-write detection — on a valid buffer with `N > 0` unread
bytes, `WriteTo` against a sink that accepts `M < N` bytes and reports no
error of its own returns the count `M` together with `io.ErrShortWrite`
and advances the read cursor by exactly `M` (leaving the data in place);
on a buffer with no unread bytes it writes nothing and reports no error. -/
theorem writeTo_short (b : Buffer) (M : Nat) (hv : b.Valid) :
    (0 < b.Len → M < b.Len →
      (b.WriteTo M none).2.1 = M ∧
        (b.WriteTo M none).2.2 = some GoErr.shortWrite ∧
        ((b.WriteTo M none).1).r = b.r + M ∧
        ((b.WriteTo M none).1).buf = b.buf) ∧
    (b.Len = 0 → (b.WriteTo M none).2.1 = 0 ∧ (b.WriteTo M none).2.2 = none) := by
  obtain ⟨hrl, hlc⟩ := hv
  have hLen : b.Len = b.buf.length - b.r := rfl
  constructor
  · intro hpos hM
    rw [hLen] at hpos hM
    have h1 : ¬ (b.buf.length ≤ b.r) := by omega
    by_cases hM0 : 0 < M
    · have h2 : ¬ (b.buf.length ≤ b.r + M) := by omega
      have h3 : M ≠ b.buf.length - b.r := by omega
      simp [Buffer.WriteTo, h1, h2, hM0, h3]
    · have hMz : M = 0 := by omega
      subst hMz
      have h3 : (0 : Nat) ≠ b.buf.length - b.r := by omega
      simp [Buffer.WriteTo, h1, h3]
  · intro hz
    rw [hLen] at hz
    have h1 : b.buf.length ≤ b.r := by omega
    simp [Buffer.WriteTo, h1]

/-- Witness for short-write detection: three unread bytes offered, two
accepted (short write, cursor advanced by two); and a drained buffer
(write-nothing, no error). -/
theorem writeTo_short_witness :
    ((Buffer.mk [5, 6, 7] 4 0).WriteTo 2 none).2.1 = 2 ∧
      ((Buffer.mk [5, 6, 7] 4 0).WriteTo 2 none).2.2 = some GoErr.shortWrite ∧
      (((Buffer.mk [5, 6, 7] 4 0).WriteTo 2 none).1).r = (Buffer.mk [5, 6, 7] 4 0).r + 2 ∧
      (((Buffer.mk [5, 6, 7] 4 0).WriteTo 2 none).1).buf = [5, 6, 7] ∧
      ((Buffer.mk [] 4 0).WriteTo 9 none).2.1 = 0 ∧
      ((Buffer.mk [] 4 0).WriteTo 9 none).2.2 = none := by
  have h1 := (writeTo_short (Buffer.mk [5, 6, 7] 4 0) 2 (by decide)).1
    (by decide) (by decide)
  have h2 := (writeTo_short (Buffer.mk [] 4 0) 9 (by decide)).2 (by decide)
  exact ⟨h1.1, h1.2.1, h1.2.2.1, h1.2.2.2, h2.1, h2.2⟩

/-! ## Invariant preservation through the public operations -/

namespace Buffer

theorem Reset_valid (b : Buffer) : (b.Reset).Valid := by
  simp [Reset, Valid]

theorem Reset_tidy (b : Buffer) : (b.Reset).Tidy := by
  simp [Reset, Tidy]

theorem grow_len_le (b : Buffer) (n : Nat) :
    (b.grow n).buf.length ≤ b.buf.length := by
  by_cases hn : n = 0
  · rw [hn, grow_zero]
  by_cases hd : b.buf.length ≤ b.r
  · rw [grow_eq_drained hd, if_neg hn]
    by_cases hc : n ≤ b.cap
    · simp [hc, Reset]
    · simp [hc]
  push_neg at hd
  by_cases hf : b.buf.length + n ≤ b.cap
  · rw [grow_eq_of_fast hn hd hf]
  by_cases hcc : 0 < b.r ∧ (b.buf.length - b.r) + n ≤ b.cap
  · rw [grow_eq_of_compact hn hd hf hcc.1 hcc.2]
    simp
  · rw [grow_eq_of_realloc hn hd hf hcc]
    simp

end Buffer

/-- Invariant preservation for the shared write-append pattern of
`Write`, `WriteByte` and `WriteString` on a nonempty payload. -/
theorem writePattern_inv (b : Buffer) (p : List Nat)
    (hv : b.Valid) (hp : p.length ≠ 0)
    (hsz : b.buf.length + p.length ≤ 2 ^ 62) :
    (Buffer.goAppend ((if b.buf.length ≤ b.r then b.Reset else b).grow p.length) p).Valid ∧
      (Buffer.goAppend ((if b.buf.length ≤ b.r then b.Reset else b).grow p.length) p).Tidy := by
  set b1 := if b.buf.length ≤ b.r then b.Reset else b with hb1
  have hv1 : b1.Valid := by
    rw [hb1]
    by_cases hd : b.buf.length ≤ b.r
    · simpa [hd] using Buffer.Reset_valid b
    · simpa [hd] using hv
  have hlen1 : b1.buf.length ≤ b.buf.length := by
    rw [hb1]
    by_cases hd : b.buf.length ≤ b.r
    · simp [hd, Buffer.Reset]
    · simp [hd]
  have hb : b1.Len + p.length ≤ 2 ^ 62 := by
    have hL : b1.Len ≤ b1.buf.length := Nat.sub_le _ _
    omega
  have hg := Buffer.grow_valid hv1 hb
  have hf := Buffer.grow_free hv1 (by omega) hb
  refine ⟨⟨?_, ?_⟩, ?_⟩
  · simp only [Buffer.goAppend, List.length_append]
    have := hg.1
    omega
  · simp only [Buffer.goAppend, List.length_append]
    omega
  · intro h
    simp only [Buffer.goAppend, List.length_append] at h ⊢
    have := hg.1
    omega

namespace Buffer

/-- Invariant preservation for one `ReadFrom` iteration. -/
theorem readFromStep_inv (b : Buffer) (chunk : List Nat)
    (hv : b.Valid) (ht : b.Tidy) (hb : b.buf.length + 512 ≤ 2 ^ 62) :
    (readFromStep b chunk).Valid ∧ (readFromStep b chunk).Tidy ∧
      (readFromStep b chunk).buf.length ≤ b.buf.length + chunk.length := by
  unfold readFromStep
  set b1 := if b.buf.length = b.cap then b.grow 512 else b with hb1
  have h1 : b1.Valid ∧ b1.Tidy ∧ b1.buf.length ≤ b.buf.length := by
    rw [hb1]
    by_cases hfull : b.buf.length = b.cap
    · rw [if_pos hfull]
      have hLb : b.Len ≤ b.buf.length := Nat.sub_le _ _
      exact ⟨grow_valid hv (by omega), grow_tidy hv ht, grow_len_le b 512⟩
    · rw [if_neg hfull]
      exact ⟨hv, ht, le_refl _⟩
  obtain ⟨⟨hr1, hl1⟩, ht1, hlen1⟩ := h1
  have hwc : (chunk.take (b1.cap - b1.buf.length)).length
      ≤ b1.cap - b1.buf.length := by
    simp [List.length_take]
  have hwk : (chunk.take (b1.cap - b1.buf.length)).length ≤ chunk.length := by
    simp [List.length_take]
  by_cases h0 : (chunk.take (b1.cap - b1.buf.length)).length ≠ 0
  · rw [if_pos h0]
    refine ⟨⟨?_, ?_⟩, ?_, ?_⟩
    · simp only [List.length_append]
      omega
    · simp only [List.length_append]
      omega
    · intro h
      simp only [List.length_append] at h ⊢
      omega
    · simp only [List.length_append]
      omega
  · rw [if_neg h0]
    exact ⟨⟨hr1, hl1⟩, ht1, by omega⟩

/-- Invariant preservation through the whole `ReadFrom` loop. -/
theorem readFromLoop_inv (src : List (List Nat × Option GoErr)) :
    ∀ (b : Buffer) (total : Nat), b.Valid → b.Tidy →
      b.buf.length + (src.map fun c => c.1.length).sum + 512 ≤ 2 ^ 62 →
      (readFromLoop b total src).1.Valid ∧ (readFromLoop b total src).1.Tidy := by
  induction src with
  | nil =>
    intro b total hv ht hb
    exact ⟨hv, ht⟩
  | cons hd rest ih =>
    obtain ⟨chunk, err⟩ := hd
    intro b total hv ht hb
    simp only [List.map_cons, List.sum_cons] at hb
    have hstep := readFromStep_inv b chunk hv ht (by omega)
    match err with
    | some GoErr.eof => exact ⟨hstep.1, hstep.2.1⟩
    | some GoErr.shortWrite => exact ⟨hstep.1, hstep.2.1⟩
    | some GoErr.other => exact ⟨hstep.1, hstep.2.1⟩
    | none =>
      exact ih (readFromStep b chunk) (total + readFromGot b chunk)
        hstep.1 hstep.2.1 (by have := hstep.2.2; omega)

end Buffer

/-- Every public operation preserves the buffer invariant, and never
leaves a drained-but-nonempty buffer behind if it did not start with one. -/
theorem applyB_inv (b : Buffer) (op : BOp) (hv : b.Valid)
    (hsz : sizeOK b op = true) :
    (applyB b op).Valid ∧ (b.Tidy → (applyB b op).Tidy) := by
  obtain ⟨hrl, hlc⟩ := hv
  cases op with
  | writeOp p =>
    by_cases hp : p.length = 0
    · simp only [applyB, Buffer.Write, if_pos hp]
      exact ⟨⟨hrl, hlc⟩, fun ht => ht⟩
    · have hsz' : b.buf.length + p.length ≤ 2 ^ 62 := by
        simpa [sizeOK] using hsz
      have h := writePattern_inv b p ⟨hrl, hlc⟩ hp hsz'
      simp only [applyB, Buffer.Write, if_neg hp]
      exact ⟨h.1, fun _ => h.2⟩
  | writeByteOp v =>
    have hsz' : b.buf.length + 1 ≤ 2 ^ 62 := by
      simpa [sizeOK] using hsz
    have h := writePattern_inv b [v] ⟨hrl, hlc⟩ (by simp) (by simpa using hsz')
    simp only [applyB, Buffer.WriteByte]
    exact ⟨h.1, fun _ => h.2⟩
  | writeStringOp s =>
    by_cases hp : s.length = 0
    · simp only [applyB, Buffer.WriteString, if_pos hp]
      exact ⟨⟨hrl, hlc⟩, fun ht => ht⟩
    · have hsz' : b.buf.length + s.length ≤ 2 ^ 62 := by
        simpa [sizeOK] using hsz
      have h := writePattern_inv b s ⟨hrl, hlc⟩ hp hsz'
      simp only [applyB, Buffer.WriteString, if_neg hp]
      exact ⟨h.1, fun _ => h.2⟩
  | readOp plen =>
    simp only [applyB]
    by_cases hp : plen = 0
    · simp only [Buffer.Read, if_pos hp]
      exact ⟨⟨hrl, hlc⟩, fun ht => ht⟩
    by_cases hd : b.buf.length ≤ b.r
    · simp only [Buffer.Read, if_neg hp, if_pos hd]
      exact ⟨Buffer.Reset_valid b, fun _ => Buffer.Reset_tidy b⟩
    simp only [Buffer.Read, if_neg hp, if_neg hd]
    have hcl : ((b.buf.drop b.r).take plen).length = min plen (b.buf.length - b.r) := by
      simp [List.length_take]
    by_cases hend : b.buf.length ≤ b.r + ((b.buf.drop b.r).take plen).length
    · rw [if_pos hend]
      exact ⟨Buffer.Reset_valid _, fun _ => Buffer.Reset_tidy _⟩
    · rw [if_neg hend]
      refine ⟨⟨by simp only []; omega, hlc⟩, fun _ => ?_⟩
      intro h
      simp only [] at h
      omega
  | writeToOp M werr =>
    simp only [applyB]
    by_cases hd : b.buf.length ≤ b.r
    · simp only [Buffer.WriteTo, if_pos hd]
      exact ⟨Buffer.Reset_valid b, fun _ => Buffer.Reset_tidy b⟩
    simp only [Buffer.WriteTo, if_neg hd]
    push_neg at hd
    have hgoal : ∀ bb : Buffer, bb.Valid → bb.Tidy →
        ((if werr = none ∧ M ≠ b.buf.length - b.r
          then (bb, M, some GoErr.shortWrite)
          else (bb, M, werr)).1.Valid ∧
        ((if werr = none ∧ M ≠ b.buf.length - b.r
          then (bb, M, some GoErr.shortWrite)
          else (bb, M, werr)).1.Tidy)) := by
      intro bb hbv hbt
      by_cases hc : werr = none ∧ M ≠ b.buf.length - b.r
      · rw [if_pos hc]
        exact ⟨hbv, hbt⟩
      · rw [if_neg hc]
        exact ⟨hbv, hbt⟩
    by_cases hM : 0 < M
    · rw [if_pos hM]
      by_cases hend : b.buf.length ≤ b.r + M
      · rw [if_pos hend]
        have h := hgoal (Buffer.Reset { b with r := b.r + M })
          (Buffer.Reset_valid _) (Buffer.Reset_tidy _)
        exact ⟨h.1, fun _ => h.2⟩
      · rw [if_neg hend]
        have h := hgoal { b with r := b.r + M }
          ⟨by simp only []; omega, hlc⟩ (by intro h; simp only [] at h ⊢; omega)
        exact ⟨h.1, fun _ => h.2⟩
    · rw [if_neg hM]
      have hTb : b.Tidy := by
        intro h
        omega
      have h := hgoal b ⟨hrl, hlc⟩ hTb
      exact ⟨h.1, fun _ => h.2⟩
  | readFromOp src =>
    have hsz' : b.buf.length + (src.map fun c => c.1.length).sum + 512 ≤ 2 ^ 62 := by
      simpa [sizeOK] using hsz
    simp only [applyB, Buffer.ReadFrom]
    have hv1 : (if b.buf.length ≤ b.r then b.Reset else b).Valid ∧
        (if b.buf.length ≤ b.r then b.Reset else b).Tidy ∧
        (if b.buf.length ≤ b.r then b.Reset else b).buf.length ≤ b.buf.length := by
      by_cases hd : b.buf.length ≤ b.r
      · simp only [if_pos hd]
        exact ⟨Buffer.Reset_valid b, Buffer.Reset_tidy b, by simp [Buffer.Reset]⟩
      · simp only [if_neg hd]
        exact ⟨⟨hrl, hlc⟩, by intro h; omega, le_refl _⟩
    have h := Buffer.readFromLoop_inv src (if b.buf.length ≤ b.r then b.Reset else b) 0
      hv1.1 hv1.2.1 (by have := hv1.2.2; omega)
    exact ⟨h.1, fun _ => h.2⟩
  | reserveOp n =>
    by_cases hn : n ≤ 0
    · simp only [applyB, Buffer.Reserve, if_pos hn]
      exact ⟨⟨hrl, hlc⟩, fun ht => ht⟩
    · have hn' : 0 < n.toNat := by omega
      have hsz' : b.buf.length + n.toNat ≤ 2 ^ 62 := by
        simpa [sizeOK] using hsz
      have hbnd : b.Len + n.toNat ≤ 2 ^ 62 := by
        have : b.Len ≤ b.buf.length := Nat.sub_le _ _
        omega
      have hg := Buffer.grow_valid ⟨hrl, hlc⟩ hbnd
      have hf := Buffer.grow_free ⟨hrl, hlc⟩ hn' hbnd
      simp only [applyB, Buffer.Reserve, if_neg hn]
      refine ⟨⟨?_, ?_⟩, fun _ => ?_⟩
      · simp only [List.length_append, List.length_replicate]
        have := hg.1
        omega
      · simp only [List.length_append, List.length_replicate]
        omega
      · intro h
        simp only [List.length_append, List.length_replicate] at h ⊢
        have := hg.1
        omega
  | growOp n =>
    by_cases hn : 0 < n
    · have hsz' : b.buf.length + n.toNat ≤ 2 ^ 62 := by
        simpa [sizeOK] using hsz
      have hbnd : b.Len + n.toNat ≤ 2 ^ 62 := by
        have : b.Len ≤ b.buf.length := Nat.sub_le _ _
        omega
      simp only [applyB, Buffer.Grow, if_pos hn]
      exact ⟨Buffer.grow_valid ⟨hrl, hlc⟩ hbnd,
        fun ht => Buffer.grow_tidy ⟨hrl, hlc⟩ ht⟩
    · simp only [applyB, Buffer.Grow, if_neg hn]
      exact ⟨⟨hrl, hlc⟩, fun ht => ht⟩
  | resetOp =>
    simp only [applyB]
    exact ⟨Buffer.Reset_valid b, fun _ => Buffer.Reset_tidy b⟩

/-- The invariant is preserved by arbitrary operation sequences. -/
theorem applySeq_valid (ops : List BOp) : ∀ b : Buffer, b.Valid →
    seqSizesOK b ops = true → (applySeq b ops).Valid := by
  induction ops with
  | nil => intro b hv _; exact hv
  | cons op ops ih =>
    intro b hv hsz
    simp only [seqSizesOK, Bool.and_eq_true] at hsz
    exact ih (applyB b op) (applyB_inv b op hv hsz.1).1 hsz.2

/-- Validity and tidiness together are preserved by operation sequences. -/
theorem applySeq_tidy (ops : List BOp) : ∀ b : Buffer, b.Valid → b.Tidy →
    seqSizesOK b ops = true →
    (applySeq b ops).Valid ∧ (applySeq b ops).Tidy := by
  induction ops with
  | nil => intro b hv ht _; exact ⟨hv, ht⟩
  | cons op ops ih =>
    intro b hv ht hsz
    simp only [seqSizesOK, Bool.and_eq_true] at hsz
    have h := applyB_inv b op hv hsz.1
    exact ih (applyB b op) h.1 (h.2 ht) hsz.2

/-- C9: Buffer state invariant — on any valid buffer, after any sequence
of the public operations (Write, WriteByte, WriteString, Read, WriteTo,
ReadFrom, Reserve, Grow, Reset) whose size demands stay in the machine
range, the relation `0 ≤ read cursor ≤ write length ≤ capacity` holds. -/
theorem buffer_invariant (b : Buffer) (ops : List BOp)
    (hv : b.Valid) (hsz : seqSizesOK b ops = true) :
    (applySeq b ops).r ≤ (applySeq b ops).buf.length ∧
      (applySeq b ops).buf.length ≤ (applySeq b ops).Cap :=
  applySeq_valid ops b hv hsz

/-- Witness for the buffer invariant on a run exercising every public
operation. -/
theorem buffer_invariant_witness :
    (applySeq (Buffer.NewBuffer 2)
      [BOp.writeOp [1, 2, 3], BOp.readOp 2, BOp.writeToOp 1 none,
       BOp.reserveOp 2, BOp.growOp 1, BOp.readFromOp [([7, 8], none)],
       BOp.resetOp, BOp.writeStringOp [4], BOp.writeByteOp 5,
       BOp.readOp 9]).r
      ≤ (applySeq (Buffer.NewBuffer 2)
      [BOp.writeOp [1, 2, 3], BOp.readOp 2, BOp.writeToOp 1 none,
       BOp.reserveOp 2, BOp.growOp 1, BOp.readFromOp [([7, 8], none)],
       BOp.resetOp, BOp.writeStringOp [4], BOp.writeByteOp 5,
       BOp.readOp 9]).buf.length ∧
    (applySeq (Buffer.NewBuffer 2)
      [BOp.writeOp [1, 2, 3], BOp.readOp 2, BOp.writeToOp 1 none,
       BOp.reserveOp 2, BOp.growOp 1, BOp.readFromOp [([7, 8], none)],
       BOp.resetOp, BOp.writeStringOp [4], BOp.writeByteOp 5,
       BOp.readOp 9]).buf.length
      ≤ (applySeq (Buffer.NewBuffer 2)
      [BOp.writeOp [1, 2, 3], BOp.readOp 2, BOp.writeToOp 1 none,
       BOp.reserveOp 2, BOp.growOp 1, BOp.readFromOp [([7, 8], none)],
       BOp.resetOp, BOp.writeStringOp [4], BOp.writeByteOp 5,
       BOp.readOp 9]).Cap :=
  buffer_invariant (Buffer.NewBuffer 2)
    [BOp.writeOp [1, 2, 3], BOp.readOp 2, BOp.writeToOp 1 none,
     BOp.reserveOp 2, BOp.growOp 1, BOp.readFromOp [([7, 8], none)],
     BOp.resetOp, BOp.writeStringOp [4], BOp.writeByteOp 5,
     BOp.readOp 9] (by decide) (by decide)

/-- C10: the drained state is never externally observable — after any
operation sequence from a fresh buffer the cursor equals the length only
when both are zero; and Read or WriteTo calls that consume the last
unread byte (or touch an already fully-consumed valid buffer) collapse
the buffer to the empty state with its capacity retained. -/
theorem drained_not_observable (c : Int) (ops : List BOp) (b : Buffer)
    (plen M : Nat) (e : Option GoErr)
    (hsz : seqSizesOK (Buffer.NewBuffer c) ops = true) (hv : b.Valid) :
    ((applySeq (Buffer.NewBuffer c) ops).r
        = (applySeq (Buffer.NewBuffer c) ops).buf.length →
      (applySeq (Buffer.NewBuffer c) ops).r = 0 ∧
        (applySeq (Buffer.NewBuffer c) ops).buf.length = 0) ∧
      (0 < plen → b.Len ≤ plen → (b.Read plen).1 = Buffer.mk [] b.cap 0) ∧
      (b.Len ≤ M → (b.WriteTo M e).1 = Buffer.mk [] b.cap 0) := by
  obtain ⟨hrl, hlc⟩ := hv
  have hLen : b.Len = b.buf.length - b.r := rfl
  refine ⟨?_, ?_, ?_⟩
  · intro h
    have h0 := applySeq_tidy ops (Buffer.NewBuffer c)
      (by simp [Buffer.NewBuffer, Buffer.Valid])
      (by simp [Buffer.NewBuffer, Buffer.Tidy]) hsz
    have hz := h0.2 h
    omega
  · intro hp hle
    rw [hLen] at hle
    have hp0 : plen ≠ 0 := by omega
    by_cases hd : b.buf.length ≤ b.r
    · simp only [Buffer.Read, if_neg hp0, if_pos hd]
      rfl
    · push_neg at hd
      simp only [Buffer.Read, if_neg hp0, if_neg (by omega : ¬ b.buf.length ≤ b.r)]
      have hcl : ((b.buf.drop b.r).take plen).length = b.buf.length - b.r := by
        simp only [List.length_take, List.length_drop]
        omega
      rw [if_pos (by rw [hcl]; omega)]
      rfl
  · intro hle
    rw [hLen] at hle
    by_cases hd : b.buf.length ≤ b.r
    · simp only [Buffer.WriteTo, if_pos hd]
      rfl
    · push_neg at hd
      have hM : 0 < M := by omega
      simp only [Buffer.WriteTo, if_neg (by omega : ¬ b.buf.length ≤ b.r), if_pos hM,
        if_pos (by omega : b.buf.length ≤ b.r + M)]
      by_cases hc : e = none ∧ M ≠ b.buf.length - b.r
      · rw [if_pos hc]
        rfl
      · rw [if_neg hc]
        rfl

/-- Witness for the drained-state theorem: an operation run that fully
drains the buffer, a Read consuming the last unread bytes, and a WriteTo
whose sink accepts everything. -/
theorem drained_not_observable_witness :
    (((applySeq (Buffer.NewBuffer 3)
        [BOp.writeOp [1, 2], BOp.readOp 5]).r
        = (applySeq (Buffer.NewBuffer 3)
        [BOp.writeOp [1, 2], BOp.readOp 5]).buf.length →
      (applySeq (Buffer.NewBuffer 3) [BOp.writeOp [1, 2], BOp.readOp 5]).r = 0 ∧
        (applySeq (Buffer.NewBuffer 3)
          [BOp.writeOp [1, 2], BOp.readOp 5]).buf.length = 0) ∧
      (0 < 5 → (Buffer.mk [1, 2] 4 1).Len ≤ 5 →
        ((Buffer.mk [1, 2] 4 1).Read 5).1 = Buffer.mk [] 4 0) ∧
      ((Buffer.mk [1, 2] 4 1).Len ≤ 9 →
        ((Buffer.mk [1, 2] 4 1).WriteTo 9 none).1 = Buffer.mk [] 4 0)) :=
  drained_not_observable 3 [BOp.writeOp [1, 2], BOp.readOp 5]
    (Buffer.mk [1, 2] 4 1) 5 9 none (by decide) (by decide)

/-! ## Pool invariant lemmas -/

theorem getD_set_self {α : Type _} (l : List α) (i : Nat) (x d : α)
    (h : i < l.length) : (l.set i x).getD i d = x := by
  rw [List.getD_eq_getElem?_getD, List.getElem?_set_self h]
  rfl

theorem getD_set_ne {α : Type _} (l : List α) {i j : Nat} (x d : α)
    (h : i ≠ j) : (l.set i x).getD j d = l.getD j d := by
  rw [List.getD_eq_getElem?_getD, List.getElem?_set_ne h,
    ← List.getD_eq_getElem?_getD]

theorem getD_replicate_self {α : Type _} (n m : Nat) (a : α) :
    (List.replicate n a).getD m a = a := by
  rw [List.getD_eq_getElem?_getD, List.getElem?_replicate]
  split <;> rfl

theorem bucketIndexLoop_spec (size : Nat) :
    ∀ (sizes : List Nat) (i : Nat), bucketIndexLoop size sizes = some i →
      i < sizes.length ∧ size ≤ sizes.getD i 0 := by
  intro sizes
  induction sizes with
  | nil =>
    intro i h
    simp [bucketIndexLoop] at h
  | cons s ss ih =>
    intro i h
    by_cases hs : size ≤ s
    · simp only [bucketIndexLoop, if_pos hs, Option.some.injEq] at h
      subst h
      exact ⟨by simp, hs⟩
    · simp only [bucketIndexLoop, if_neg hs] at h
      cases hmap : bucketIndexLoop size ss with
      | none =>
        rw [hmap] at h
        simp at h
      | some j =>
        rw [hmap] at h
        simp at h
        subst h
        obtain ⟨h1, h2⟩ := ih j hmap
        exact ⟨by simpa using h1, h2⟩

theorem bucketIndex_lt (sizes : List Nat) (size : Nat) (h : sizes ≠ []) :
    bucketIndex sizes size < sizes.length := by
  have hlen : 0 < sizes.length := List.length_pos.mpr h
  unfold bucketIndex
  by_cases h0 : size = 0
  · rw [if_pos h0]
    exact hlen
  · rw [if_neg h0]
    cases hmap : bucketIndexLoop size sizes with
    | none =>
      dsimp only
      omega
    | some i =>
      dsimp only
      exact (bucketIndexLoop_spec size sizes i hmap).1

theorem bucketIndex_class_bound (sizes : List Nat) (size : Nat)
    (h : bucketIndex sizes size + 1 < sizes.length) :
    size ≤ sizes.getD (bucketIndex sizes size) 0 := by
  unfold bucketIndex at h ⊢
  by_cases h0 : size = 0
  · simp [h0]
  · rw [if_neg h0] at h ⊢
    cases hmap : bucketIndexLoop size sizes with
    | none =>
      rw [hmap] at h
      dsimp only at h
      omega
    | some i =>
      dsimp only
      exact (bucketIndexLoop_spec size sizes i hmap).2

/-- `recalibratePercentile` only touches the counters and the default
capacity, never the sub-pools or the configuration. -/
theorem recalibrate_pools (p : PoolState) :
    (recalibratePercentile p).buckets = p.buckets ∧
      (recalibratePercentile p).smallPool = p.smallPool ∧
      (recalibratePercentile p).sizes = p.sizes ∧
      (recalibratePercentile p).smallLimit = p.smallLimit := by
  simp only [recalibratePercentile]
  split
  · exact ⟨rfl, rfl, rfl, rfl⟩
  · split <;> exact ⟨rfl, rfl, rfl, rfl⟩

/-- `observeSize` only touches the counters and the default capacity. -/
theorem observeSize_pools (p : PoolState) (size idx : Nat) :
    (observeSize p size idx).buckets = p.buckets ∧
      (observeSize p size idx).smallPool = p.smallPool ∧
      (observeSize p size idx).sizes = p.sizes ∧
      (observeSize p size idx).smallLimit = p.smallLimit := by
  simp only [observeSize]
  split
  · exact ⟨rfl, rfl, rfl, rfl⟩
  · split
    · exact ⟨rfl, rfl, rfl, rfl⟩
    · exact recalibrate_pools _

/-- `Calibrate` only touches the default capacity and the calibration
counter. -/
theorem Calibrate_pools (p : PoolState) (m : Int) :
    (Calibrate p m).buckets = p.buckets ∧
      (Calibrate p m).smallPool = p.smallPool ∧
      (Calibrate p m).sizes = p.sizes ∧
      (Calibrate p m).smallLimit = p.smallLimit := by
  simp only [Calibrate]
  split
  · exact ⟨rfl, rfl, rfl, rfl⟩
  · exact ⟨rfl, rfl, rfl, rfl⟩

/-- `Put` preserves the pool invariant, whatever buffer the caller
returns. -/
theorem Put_inv (p : PoolState) (ob : Option Buffer) (h : PoolInv p) :
    PoolInv (Put p ob) := by
  obtain ⟨hne, hlen, hclass, hsmall, hreset⟩ := h
  cases ob with
  | none => exact ⟨hne, hlen, hclass, hsmall, hreset⟩
  | some b =>
    have hobs := observeSize_pools { p with puts := p.puts + 1 } (b.Reset).cap
      (bucketIndex p.sizes (b.Reset).cap)
    show PoolInv (if (b.Reset).cap ≤ p.smallLimit then _ else _)
    by_cases hcap : (b.Reset).cap ≤ p.smallLimit
    · rw [if_pos hcap]
      refine ⟨?_, ?_, ?_, ?_, ?_⟩
      · simpa [hobs.2.2.1] using hne
      · simp [hobs.1, hobs.2.2.1, hlen]
      · intro i hi bb hbb
        simp only [hobs.2.2.1] at hi
        simp only [hobs.1] at hbb
        simpa [hobs.2.2.1] using hclass i hi bb hbb
      · intro bb hbb
        simp only [hobs.2.1] at hbb
        rcases List.mem_cons.mp hbb with hb1 | hb2
        · subst hb1
          exact ⟨rfl, rfl⟩
        · exact hsmall bb hb2
      · intro i bb hbb
        simp only [hobs.1] at hbb
        exact hreset i bb hbb
    · rw [if_neg hcap]
      refine ⟨?_, ?_, ?_, ?_, ?_⟩
      · simpa [hobs.2.2.1] using hne
      · simp [hobs.1, hobs.2.2.1, hlen]
      · intro i hi bb hbb
        simp only [hobs.2.2.1] at hi ⊢
        simp only [hobs.1] at hbb
        by_cases hij : bucketIndex p.sizes (b.Reset).cap = i
        · subst hij
          rw [getD_set_self _ _ _ _ (by
            rw [hlen]
            exact bucketIndex_lt p.sizes (b.Reset).cap hne)] at hbb
          rcases List.mem_cons.mp hbb with hb1 | hb2
          · subst hb1
            exact bucketIndex_class_bound p.sizes (b.Reset).cap hi
          · exact hclass _ hi bb hb2
        · rw [getD_set_ne _ _ _ hij] at hbb
          exact hclass i hi bb hbb
      · intro bb hbb
        simp only [hobs.2.1] at hbb
        exact hsmall bb hbb
      · intro i bb hbb
        simp only [hobs.1] at hbb
        by_cases hij : bucketIndex p.sizes (b.Reset).cap = i
        · subst hij
          rw [getD_set_self _ _ _ _ (by
            rw [hlen]
            exact bucketIndex_lt p.sizes (b.Reset).cap hne)] at hbb
          rcases List.mem_cons.mp hbb with hb1 | hb2
          · subst hb1
            exact ⟨rfl, rfl⟩
          · exact hreset _ bb hb2
        · rw [getD_set_ne _ _ _ hij] at hbb
          exact hreset i bb hbb

/-- Transporting the pool invariant along equal pool/table fields. -/
theorem PoolInv_of_fields {p q : PoolState} (h : PoolInv p)
    (hb : q.buckets = p.buckets) (hs : q.smallPool = p.smallPool)
    (hz : q.sizes = p.sizes) : PoolInv q := by
  obtain ⟨hne, hlen, hclass, hsmall, hreset⟩ := h
  refine ⟨by rw [hz]; exact hne, by rw [hb, hz]; exact hlen, ?_, ?_, ?_⟩
  · intro i hi bb hbb
    rw [hz] at hi ⊢
    rw [hb] at hbb
    exact hclass i hi bb hbb
  · intro bb hbb
    rw [hs] at hbb
    exact hsmall bb hbb
  · intro i bb hbb
    rw [hb] at hbb
    exact hreset i bb hbb

/-- A `sync.Pool` draw preserves the pool invariant and always yields a
reset buffer (stored buffers were reset by `Put`; fresh ones are empty). -/
theorem DrawB_inv {p : PoolState} {n : Nat} {b : Buffer} {p' : PoolState}
    (hd : DrawB p n b p') (h : PoolInv p) :
    PoolInv p' ∧ b.buf = [] ∧ b.r = 0 := by
  obtain ⟨hne, hlen, hclass, hsmall, hreset⟩ := h
  cases hd with
  | smallHit l₁ l₂ _ hn hs =>
    constructor
    · refine ⟨hne, hlen, hclass, ?_, hreset⟩
      intro bb hbb
      apply hsmall
      rw [hs]
      rcases List.mem_append.mp hbb with h1 | h2
      · exact List.mem_append.mpr (Or.inl h1)
      · exact List.mem_append.mpr (Or.inr (List.mem_cons_of_mem _ h2))
    · exact hsmall b (by
        rw [hs]
        exact List.mem_append.mpr (Or.inr (List.mem_cons_self _ _)))
  | smallMiss hn =>
    exact ⟨⟨hne, hlen, hclass, hsmall, hreset⟩, rfl, rfl⟩
  | bucketHit l₁ l₂ _ hn hs =>
    have hidx : bucketIndex p.sizes n < p.buckets.length := by
      rw [hlen]
      exact bucketIndex_lt _ _ hne
    constructor
    · refine ⟨hne, by rw [List.length_set]; exact hlen, ?_, hsmall, ?_⟩
      · intro i hi bb hbb
        by_cases hij : bucketIndex p.sizes n = i
        · subst hij
          rw [getD_set_self _ _ _ _ hidx] at hbb
          apply hclass _ hi
          rw [hs]
          rcases List.mem_append.mp hbb with h1 | h2
          · exact List.mem_append.mpr (Or.inl h1)
          · exact List.mem_append.mpr (Or.inr (List.mem_cons_of_mem _ h2))
        · rw [getD_set_ne _ _ _ hij] at hbb
          exact hclass i hi bb hbb
      · intro i bb hbb
        by_cases hij : bucketIndex p.sizes n = i
        · subst hij
          rw [getD_set_self _ _ _ _ hidx] at hbb
          apply hreset _
          rw [hs]
          rcases List.mem_append.mp hbb with h1 | h2
          · exact List.mem_append.mpr (Or.inl h1)
          · exact List.mem_append.mpr (Or.inr (List.mem_cons_of_mem _ h2))
        · rw [getD_set_ne _ _ _ hij] at hbb
          exact hreset i bb hbb
    · exact hreset (bucketIndex p.sizes n) b (by
        rw [hs]
        exact List.mem_append.mpr (Or.inr (List.mem_cons_self _ _)))
  | bucketMiss hn =>
    exact ⟨⟨hne, hlen, hclass, hsmall, hreset⟩, rfl, rfl⟩

/-- Every public pool transition preserves the pool invariant. -/
theorem PStep_inv {p p' : PoolState} (h : PStep p p') (hi : PoolInv p) :
    PoolInv p' := by
  cases h with
  | get _ n b hd =>
    have hg : PoolInv { p with gets := p.gets + 1 } := hi
    exact (DrawB_inv hd hg).1
  | put ob => exact Put_inv p ob hi
  | calibrate m =>
    have hc := Calibrate_pools p m
    exact PoolInv_of_fields hi hc.1 hc.2.1 hc.2.2.1

/-- A freshly constructed pool satisfies the pool invariant. -/
theorem NewBufferPool_inv (opts : PoolOptions) :
    PoolInv (NewBufferPoolWithOptions opts) := by
  simp only [NewBufferPoolWithOptions, PoolInv]
  refine ⟨?_, ?_, ?_, ?_, ?_⟩
  · by_cases h0 : normalizeSizes opts.bucketSizes = []
    · simp [h0, defaultBucketSizes]
    · simp [h0]
  · simp
  · intro i hi bb hbb
    rw [getD_replicate_self] at hbb
    exact absurd hbb (List.not_mem_nil bb)
  · intro bb hbb
    exact absurd hbb (List.not_mem_nil bb)
  · intro i bb hbb
    rw [getD_replicate_self] at hbb
    exact absurd hbb (List.not_mem_nil bb)

/-- The pool invariant holds in every reachable pool state. -/
theorem reachable_inv {opts : PoolOptions} {s : PoolState}
    (h : Reachable opts s) : PoolInv s := by
  induction h with
  | init => exact NewBufferPool_inv opts
  | step h hs ih => exact PStep_inv hs ih

/-! ## Pool claims -/

/-- C1 counterexample: the claimed classification bound fails for the
last size class.  On the two-class pool {16, 32}, `GetSized(33)` draws a
fresh buffer from the last class and grows it to capacity 64; `Put`
stores it back in class 1's sub-pool, whose bound `sizes[1] = 32` is
exceeded. -/
theorem pool_class_bound_counterexample :
    ∃ s : PoolState, Reachable optsTwo s ∧
      ∃ b ∈ s.buckets.getD 1 [], s.sizes.getD 1 0 < b.cap := by
  refine ⟨_, Reachable.step (Reachable.step Reachable.init
    (PStep.get (NewBufferPoolWithOptions optsTwo) _ 33 _
      (DrawB.bucketMiss _ _ (by decide)))) (PStep.put _ (some grownBuf)), ?_⟩
  decide

/-- C1 (amended): in every reachable pool state, every buffer stored in
the sub-pool of a size class that is not the last one has capacity at
most that class's bound (buffers grown past the largest class are parked
in the last class's sub-pool and may exceed its bound). -/
theorem pool_class_bound (opts : PoolOptions) (s : PoolState)
    (h : Reachable opts s) :
    ∀ i, i + 1 < s.sizes.length →
      ∀ b ∈ s.buckets.getD i [], b.cap ≤ s.sizes.getD i 0 :=
  (reachable_inv h).2.2.1

/-- Witness for the amended classification bound: a 20-byte-capacity
buffer returned to the three-class pool {16, 32, 64} lands in class 1 and
respects its bound. -/
theorem pool_class_bound_witness :
    (Buffer.mk [] 20 0).cap
      ≤ (Put (NewBufferPoolWithOptions optsThree)
          (some (Buffer.mk [] 20 0))).sizes.getD 1 0 :=
  pool_class_bound optsThree _
    (Reachable.step Reachable.init (PStep.put _ (some (Buffer.mk [] 20 0))))
    1 (by decide) (Buffer.mk [] 20 0) (by decide)

/-- C5: Bucket ceiling — in any reachable pool state, any draw
(small-pool hit or miss, class hit or miss) finished by `getSized`'s
grow-to-fit step yields a buffer of capacity at least the requested `n`
(stated within the range where a 64-bit allocation can succeed). -/
theorem getSized_cap_ge (opts : PoolOptions) (p p' : PoolState) (n : Nat)
    (b : Buffer) (hre : Reachable opts p)
    (hd : DrawB { p with gets := p.gets + 1 } n b p') (hn : n ≤ 2 ^ 62) :
    n ≤ (getSizedFinish n b).cap := by
  have hinv := reachable_inv hre
  have hg : PoolInv { p with gets := p.gets + 1 } := hinv
  have hb := (DrawB_inv hd hg).2
  by_cases hcap : b.cap < n
  · unfold getSizedFinish
    rw [if_pos hcap]
    have hdr : b.buf.length ≤ b.r := by
      rw [hb.1, hb.2]
      simp
    have harg : n - b.buf.length = n := by
      rw [hb.1]
      simp
    rw [harg, Buffer.grow_eq_drained hdr, if_neg (by omega),
      if_neg (by omega : ¬ n ≤ b.cap)]
    show n ≤ Buffer.nextPowerOfTwo n
    exact Buffer.nextPowerOfTwo_ge (by omega) (by omega)
  · unfold getSizedFinish
    rw [if_neg hcap]
    omega

/-- Witness for the bucket ceiling: requesting 5 bytes on the fresh
two-class pool via a small-pool miss. -/
theorem getSized_cap_ge_witness :
    5 ≤ (getSizedFinish 5 (Buffer.NewBuffer 16)).cap :=
  getSized_cap_ge optsTwo (NewBufferPoolWithOptions optsTwo) _ 5
    (Buffer.NewBuffer 16) Reachable.init
    (DrawB.smallMiss _ _ (by decide)) (by decide)

/-- C7: Calibration abort discards samples — whenever the sample count in
`Put` reaches a multiple of the observation interval and the window's
total is zero or below the calibration threshold, the default capacity
and the calibration counter are unchanged while every per-class hit
counter has been zeroed. -/
theorem observe_abort (p : PoolState) (size idx : Nat)
    (hsize : 0 < size) (hev : 0 < p.observeEvery)
    (htrig : (p.observed + 1) % p.observeEvery = 0)
    (habort : (incAt p.bucketHits idx).sum = 0 ∨
      (incAt p.bucketHits idx).sum < p.calibrateThr) :
    (observeSize p size idx).defaultCap = p.defaultCap ∧
      (observeSize p size idx).calibrations = p.calibrations ∧
      (observeSize p size idx).bucketHits
        = List.replicate p.bucketHits.length 0 := by
  have hcond : ¬ (size = 0 ∨ p.observeEvery = 0) := by omega
  simp only [observeSize, if_neg hcond]
  rw [if_neg (not_not_intro htrig)]
  simp only [recalibratePercentile, if_pos habort]
  refine ⟨trivial, trivial, ?_⟩
  simp [incAt, List.length_set]

/-- Witness for the calibration abort: a two-class pool sampling every
put, whose single-hit window is far below the threshold. -/
theorem observe_abort_witness :
    (observeSize
        (PoolState.mk [16, 32] 16 1 (95 / 100) 42000 16 0 [0, 0] [[], []] [] 0 0 0 0)
        20 0).defaultCap
      = (PoolState.mk [16, 32] 16 1 (95 / 100) 42000 16 0 [0, 0] [[], []] [] 0 0 0 0).defaultCap ∧
    (observeSize
        (PoolState.mk [16, 32] 16 1 (95 / 100) 42000 16 0 [0, 0] [[], []] [] 0 0 0 0)
        20 0).calibrations
      = (PoolState.mk [16, 32] 16 1 (95 / 100) 42000 16 0 [0, 0] [[], []] [] 0 0 0 0).calibrations ∧
    (observeSize
        (PoolState.mk [16, 32] 16 1 (95 / 100) 42000 16 0 [0, 0] [[], []] [] 0 0 0 0)
        20 0).bucketHits
      = List.replicate
          (PoolState.mk [16, 32] 16 1 (95 / 100) 42000 16 0 [0, 0] [[], []] [] 0 0 0 0).bucketHits.length 0 :=
  observe_abort
    (PoolState.mk [16, 32] 16 1 (95 / 100) 42000 16 0 [0, 0] [[], []] [] 0 0 0 0)
    20 0 (by decide) (by decide) (by decide) (by decide)

theorem chooseCapLoop_spec (o : Int) :
    ∀ sizes : List Nat, sizes.Sorted (· ≤ ·) →
      ∀ s, chooseCapLoop o sizes = some s →
        s ∈ sizes ∧ o ≤ (s : Int) ∧ ∀ t ∈ sizes, o ≤ (t : Int) → s ≤ t := by
  intro sizes
  induction sizes with
  | nil =>
    intro _ s h
    simp [chooseCapLoop] at h
  | cons x xs ih =>
    intro hsorted s h
    rw [List.sorted_cons] at hsorted
    by_cases hx : o ≤ (x : Int)
    · simp only [chooseCapLoop, if_pos hx, Option.some.injEq] at h
      subst h
      refine ⟨List.mem_cons_self _ _, hx, ?_⟩
      intro t ht hot
      rcases List.mem_cons.mp ht with h1 | h2
      · omega
      · exact hsorted.1 t h2
    · simp only [chooseCapLoop, if_neg hx] at h
      obtain ⟨hmem, hle, hmin⟩ := ih hsorted.2 s h
      refine ⟨List.mem_cons_of_mem _ hmem, hle, ?_⟩
      intro t ht hot
      rcases List.mem_cons.mp ht with h1 | h2
      · subst h1
        exact absurd hot hx
      · exact hmin t h2 hot

theorem chooseCapLoop_ne_none (o : Int) :
    ∀ (sizes : List Nat) (sz : Nat), sz ∈ sizes → o ≤ (sz : Int) →
      chooseCapLoop o sizes ≠ none := by
  intro sizes
  induction sizes with
  | nil =>
    intro sz h _
    exact absurd h (List.not_mem_nil sz)
  | cons x xs ih =>
    intro sz hmem hle hloop
    by_cases hx : o ≤ (x : Int)
    · simp [chooseCapLoop, hx] at hloop
    · simp only [chooseCapLoop, if_neg hx] at hloop
      rcases List.mem_cons.mp hmem with h1 | h2
      · subst h1
        exact hx hle
      · exact ih sz h2 hle hloop

theorem chooseCapLoop_none_of_lt (o : Int) :
    ∀ sizes : List Nat, (∀ t ∈ sizes, (t : Int) < o) →
      chooseCapLoop o sizes = none := by
  intro sizes
  induction sizes with
  | nil => intro _; rfl
  | cons x xs ih =>
    intro hlt
    have hx : ¬ o ≤ (x : Int) := by
      have := hlt x (List.mem_cons_self _ _)
      omega
    simp only [chooseCapLoop, if_neg hx]
    exact ih fun t ht => hlt t (List.mem_cons_of_mem _ ht)

/-- C8 counterexample: with class table {16, 32, 64}, `Calibrate(100)`
stores 64 as the default capacity although no class is at least 100 — the
claimed "smallest size class ≥ observedSize" does not exist, and the
stored default is smaller than the observed size. -/
theorem calibrate_counterexample :
    (Calibrate (NewBufferPoolWithOptions optsThree) 100).defaultCap = 64 ∧
      ¬ (100 : Nat) ≤ (Calibrate (NewBufferPoolWithOptions optsThree) 100).defaultCap ∧
      ¬ ∃ sz ∈ (NewBufferPoolWithOptions optsThree).sizes, (100 : Nat) ≤ sz := by
  decide

/-- C8 (amended): `Calibrate(o)` is a no-op for `o ≤ 0`; for `o > 0` it
sets the default capacity to the smallest size class at least `o` when one
exists, and to the largest class when `o` exceeds every class; in
particular, on the fresh pool with class table {16, 32, 64}, after
`Calibrate(40)` the next `Get()` (which requests the default capacity)
yields a buffer of capacity exactly 64. -/
theorem calibrate_spec (p : PoolState) (o : Int)
    (hsorted : p.sizes.Sorted (· ≤ ·)) :
    (o ≤ 0 → Calibrate p o = p) ∧
      (0 < o → ∀ sz ∈ p.sizes, o ≤ (sz : Int) →
        (Calibrate p o).defaultCap ∈ p.sizes ∧
          o ≤ ((Calibrate p o).defaultCap : Int) ∧
          ∀ t ∈ p.sizes, o ≤ (t : Int) → (Calibrate p o).defaultCap ≤ t) ∧
      (0 < o → (∀ t ∈ p.sizes, (t : Int) < o) →
        (Calibrate p o).defaultCap = p.sizes.getLastD 0) ∧
      (∀ (b : Buffer) (p' : PoolState),
        DrawB { Calibrate (NewBufferPoolWithOptions optsThree) 40 with
            gets := (Calibrate (NewBufferPoolWithOptions optsThree) 40).gets + 1 }
          ((Calibrate (NewBufferPoolWithOptions optsThree) 40).defaultCap) b p' →
        (getSizedFinish
          ((Calibrate (NewBufferPoolWithOptions optsThree) 40).defaultCap) b).cap
          = 64) := by
  refine ⟨?_, ?_, ?_, ?_⟩
  · intro ho
    simp [Calibrate, ho]
  · intro ho sz hsz hosz
    have hno : ¬ o ≤ 0 := by omega
    have hdc : (Calibrate p o).defaultCap = chooseCap p.sizes o := by
      simp [Calibrate, hno]
    rw [hdc]
    unfold chooseCap
    rw [if_neg hno]
    cases hloop : chooseCapLoop o p.sizes with
    | none =>
      exact absurd hloop (chooseCapLoop_ne_none o p.sizes sz hsz hosz)
    | some s =>
      dsimp only
      obtain ⟨hmem, hle, hmin⟩ := chooseCapLoop_spec o p.sizes hsorted s hloop
      exact ⟨hmem, hle, hmin⟩
  · intro ho hall
    have hno : ¬ o ≤ 0 := by omega
    have hdc : (Calibrate p o).defaultCap = chooseCap p.sizes o := by
      simp [Calibrate, hno]
    rw [hdc]
    unfold chooseCap
    rw [if_neg hno, chooseCapLoop_none_of_lt o p.sizes hall]
  · intro b p' hd
    have hdc : (Calibrate (NewBufferPoolWithOptions optsThree) 40).defaultCap = 64 := by
      decide
    rw [hdc] at hd ⊢
    cases hd with
    | smallHit l₁ l₂ _ hn hs =>
      exact absurd hn (by decide)
    | smallMiss hn =>
      exact absurd hn (by decide)
    | bucketHit l₁ l₂ _ hn hs =>
      exfalso
      have hempty : ({ Calibrate (NewBufferPoolWithOptions optsThree) 40 with
          gets := (Calibrate (NewBufferPoolWithOptions optsThree) 40).gets + 1
            } : PoolState).buckets.getD
          (bucketIndex ({ Calibrate (NewBufferPoolWithOptions optsThree) 40 with
          gets := (Calibrate (NewBufferPoolWithOptions optsThree) 40).gets + 1
            } : PoolState).sizes 64) [] = [] := by
        decide
      rw [hempty] at hs
      exact List.noConfusion (List.append_eq_nil.mp hs.symm).2
    | bucketMiss hn =>
      decide

/-- Witness for the calibration theorem: on the fresh three-class pool,
`Calibrate(40)` stores a class at least 40 that is at most 64, and
`Calibrate(-3)` is a no-op. -/
theorem calibrate_spec_witness :
    ((40 : Int) ≤ ((Calibrate (NewBufferPoolWithOptions optsThree) 40).defaultCap : Int) ∧
      (Calibrate (NewBufferPoolWithOptions optsThree) 40).defaultCap ≤ 64) ∧
      Calibrate (NewBufferPoolWithOptions optsThree) (-3)
        = NewBufferPoolWithOptions optsThree := by
  have h := calibrate_spec (NewBufferPoolWithOptions optsThree) 40 (by decide)
  have h2 := (h.2.1 (by decide) 64 (by decide) (by decide))
  have h3 := (calibrate_spec (NewBufferPoolWithOptions optsThree) (-3)
    (by decide)).1 (by decide)
  exact ⟨⟨h2.2.1, h2.2.2 64 (by decide) (by decide)⟩, h3⟩
